import Mathlib

/-!
# johnny: open pull requests and their closing issues

A shallow embedding of `main.go`: the query model (`Issue`, `RepoQuery`), the
per-page handlers of `CmdStalePRs` and `CmdMultiplePRs`, the report loop of
`CmdMultiplePRs`, and the pagination loop `repoPaginationLoop`.

Go slices are lists (a nil slice is the empty list), Go `int` values are
integers (no arithmetic is done on issue numbers, they are only compared), and
the closures that mutate captured variables become functions that take the
captured state and return the new one.
-/

namespace Johnny

/-! ## Query model -/

/-- Go `time.Time`. A struct of three fields (wall clock, monotonic extension,
location pointer); the `==` of Go, used when an `Issue` is a map key, compares
the three fields. -/
structure Time where
  wall : Nat
  ext : Int
  loc : Nat
  deriving DecidableEq, Repr

/-- The `Issue` struct: a GitHub issue or a GitHub pull request. -/
structure Issue where
  Title : String
  Number : Int
  Closed : Bool
  Url : String
  CreatedAt : Time
  ClosedAt : Time
  deriving DecidableEq, Repr

/-- One element of `RepoQuery.Repository.PullRequests.Nodes`: the embedded
`Issue` (the pull request itself) and `ClosingIssuesReferences.Nodes`. -/
structure PullRequest extends Issue where
  ClosingIssuesReferences : List Issue
  deriving DecidableEq, Repr

/-- The `PageInfo` struct of a page of pull requests. -/
structure PageInfo where
  EndCursor : String
  HasNextPage : Bool
  deriving DecidableEq, Repr

/-- The `RepoQuery` struct as one fetch fills it: description and URL of the
repository, and one page of pull requests with its page info. -/
structure RepoQuery where
  Description : String
  Url : String
  Nodes : List PullRequest
  PageInfo : PageInfo
  deriving DecidableEq, Repr

/-- All the pull requests of a sequence of pages, in arrival order: page order,
then order within the page. -/
def allNodes (pages : List RepoQuery) : List PullRequest :=
  pages.flatMap (fun q => q.Nodes)

/-! ## `CmdStalePRs` -/

/-- The local type `stalePR` of `CmdStalePRs`. -/
structure stalePR where
  pr : Issue
  closedIssues : List Issue
  deriving DecidableEq, Repr

namespace CmdStalePRs

/-- The inner loop of the handler: collect from the closing issues the ones
that are already closed, by appending to `closed`. -/
def collectClosed (nodes : List Issue) : List Issue :=
  nodes.foldl (fun closed closing => if closing.Closed then closed ++ [closing] else closed) []

/-- The body of the outer loop of the handler, for one pull request. -/
def handlePR (stalePRs : List stalePR) (pr : PullRequest) : List stalePR :=
  if pr.ClosingIssuesReferences.length = 0 then
    stalePRs
  else
    let closed := collectClosed pr.ClosingIssuesReferences
    if closed.length = pr.ClosingIssuesReferences.length then
      stalePRs ++ [{ pr := pr.toIssue, closedIssues := closed }]
    else
      stalePRs

/-- The closure `handler` of `CmdStalePRs`: one invocation on the page held by
`query`, from the captured `stalePRs` to its new value. -/
def handler (stalePRs : List stalePR) (query : RepoQuery) : List stalePR :=
  query.Nodes.foldl handlePR stalePRs

/-- The stale-PR aggregate after the handler has run on each page in turn,
starting from the nil slice. -/
def aggregate (pages : List RepoQuery) : List stalePR :=
  pages.foldl handler []

end CmdStalePRs

/-! ## `CmdMultiplePRs` -/

/-- The Go map `map[Issue][]Issue`: an association list whose keys are pairwise
distinct, in the order in which the keys were first assigned. Keys are compared
with the `==` of Go on the struct `Issue`, that is on all six fields. -/
abbrev IssueMap := List (Issue × List Issue)

namespace IssueMap

/-- The index expression `m[k]`: the stored slice, and the nil slice when the
key is absent. -/
def index : IssueMap → Issue → List Issue
  | [], _ => []
  | (k', v) :: rest, k => if k' = k then v else index rest k

/-- The assignment `m[k] = v`: replaces the value of an existing key, adds the
key otherwise. -/
def set : IssueMap → Issue → List Issue → IssueMap
  | [], k, v => [(k, v)]
  | (k', v') :: rest, k, v => if k' = k then (k', v) :: rest else (k', v') :: set rest k v

/-- The keys of the map. -/
def keys (m : IssueMap) : List Issue :=
  m.map Prod.fst

end IssueMap

/-- The zero value of `Issue`, which `make([]Issue, n)` fills the slice with. -/
def zeroIssue : Issue :=
  { Title := "", Number := 0, Closed := false, Url := "",
    CreatedAt := { wall := 0, ext := 0, loc := 0 },
    ClosedAt := { wall := 0, ext := 0, loc := 0 } }

/-- The comparison passed to `slices.SortFunc`: `cmp.Compare(a.Number, b.Number)`. -/
def cmpNumber (a b : Issue) : Int :=
  if a.Number < b.Number then -1 else if a.Number > b.Number then 1 else 0

/-- The contract of `slices.SortFunc` (Go standard library) with `cmpNumber`:
the slice is rearranged (same elements, same multiplicities) so that no element
compares less than one that precedes it. The sort is not guaranteed stable. -/
structure IsSortFunc (sortFunc : List Issue → List Issue) : Prop where
  perm : ∀ l, (sortFunc l).Perm l
  sorted : ∀ l, (sortFunc l).Pairwise (fun a b => ¬ cmpNumber b a < 0)

/-- Insertion of `x` into a sorted slice, after the elements that do not compare
greater than `x`. -/
def insertCmp (x : Issue) : List Issue → List Issue
  | [] => [x]
  | y :: ys => if cmpNumber x y < 0 then x :: y :: ys else y :: insertCmp x ys

/-- The insertion sort that `slices.SortFunc` runs on a slice of at most 12
elements, with `cmpNumber`: each element in turn is moved left past the
elements that compare greater. -/
def insertionSortCmpFunc (l : List Issue) : List Issue :=
  l.foldl (fun sorted x => insertCmp x sorted) []

namespace CmdMultiplePRs

/-- The body of the inner loop of the handler, for one closing issue of the
pull request `pr`. -/
def handleClosing (pr : Issue) (is2pr : IssueMap) (closing : Issue) : IssueMap :=
  if !closing.Closed then
    let is2pr1 := if is2pr.index closing = [] then is2pr.set closing [] else is2pr
    is2pr1.set closing (is2pr1.index closing ++ [pr])
  else
    is2pr

/-- The body of the outer loop of the handler, for one pull request. -/
def handlePR (is2pr : IssueMap) (pr : PullRequest) : IssueMap :=
  if pr.ClosingIssuesReferences.length = 0 then
    is2pr
  else
    pr.ClosingIssuesReferences.foldl (handleClosing pr.toIssue) is2pr

/-- The closure `handler` of `CmdMultiplePRs`: one invocation on the page held
by `query`, from the captured map `is2pr` to its new value. -/
def handler (is2pr : IssueMap) (query : RepoQuery) : IssueMap :=
  query.Nodes.foldl handlePR is2pr

/-- The contested-issue map after the handler has run on each page in turn,
starting from the empty map. -/
def aggregate (pages : List RepoQuery) : IssueMap :=
  pages.foldl handler []

/-- The slice `issues` before it is sorted: `len(is2pr)` zero values, followed
by the keys of the map in the order `keyOrder` in which `range` enumerates
them. -/
def issuesSlice (is2pr : IssueMap) (keyOrder : List Issue) : List Issue :=
  List.replicate is2pr.length zeroIssue ++ keyOrder

/-- The final loop over the sorted slice. An entry of the result stands for the
block printed for one issue: the issue line and one line per pull request;
entries are numbered 1, 2, ... in the order of the list. -/
def reportLoop (is2pr : IssueMap) (issues : List Issue) : List (Issue × List Issue) :=
  issues.foldl
    (fun out issue =>
      let prs := is2pr.index issue
      if prs.length < 2 then out else out ++ [(issue, prs)])
    []

/-- The report printed from the map `is2pr`, when `range` enumerates the keys in
the order `keyOrder` and `slices.SortFunc` behaves as `sortFunc`. -/
def report (sortFunc : List Issue → List Issue) (keyOrder : List Issue)
    (is2pr : IssueMap) : List (Issue × List Issue) :=
  reportLoop is2pr (sortFunc (issuesSlice is2pr keyOrder))

/-- The report of a run over `pages`. -/
def finalReport (sortFunc : List Issue → List Issue) (keyOrder : List Issue)
    (pages : List RepoQuery) : List (Issue × List Issue) :=
  report sortFunc keyOrder (aggregate pages)

end CmdMultiplePRs

/-! ## `repoPaginationLoop` -/

/-- Go `error` values. -/
abbrev Error := String

/-- The page size constant. -/
def kPageSize : Int := 100

/-- The map `variables` passed to each query. -/
structure Variables where
  repoOwner : String
  repoName : String
  kPageSize : Int
  prCursor : Option String
  deriving DecidableEq, Repr

/-- What one call of `ghGQl.Query` answers: an error, or the new contents of
the query struct. -/
inductive Response where
  | err (e : Error)
  | ok (query : RepoQuery)
  deriving DecidableEq, Repr

/-- The observable steps of the loop: a call of `ghGQl.Query` with its
variables and its answer, and an invocation of the handler on the page held by
the query struct with the error it returns. -/
inductive Event where
  | query (vars : Variables) (response : Response)
  | handler (page : RepoQuery) (result : Option Error)
  deriving DecidableEq, Repr

/-- How a run of the loop ends: it returns an error or nil, or it is waiting
for the answer to a query that the given sequence of responses does not hold. -/
inductive Outcome where
  | returned (err : Option Error)
  | pending
  deriving DecidableEq, Repr

/-- A run of the loop: how it ended, the state captured by the handler, the
counter `totalPRs`, and the steps in order. -/
structure Run (σ : Type) where
  outcome : Outcome
  state : σ
  totalPRs : Nat
  events : List Event

/-- The `for` loop of `repoPaginationLoop`, from the top of one iteration: the
remaining responses of the remote, the current `prCursor`, the counter
`totalPRs` and the state captured by the handler. The counter is a natural
number: it is a sum of slice lengths and stays far below the range of `int`. -/
def paginate {σ : Type} (owner name : String) (maxPRs : Int)
    (handler : σ → RepoQuery → σ × Option Error) :
    List Response → Option String → Nat → σ → Run σ
  | [], _, totalPRs, s =>
    { outcome := .pending, state := s, totalPRs := totalPRs, events := [] }
  | .err e :: _, prCursor, totalPRs, s =>
    { outcome := .returned (some e), state := s, totalPRs := totalPRs,
      events := [.query ⟨owner, name, kPageSize, prCursor⟩ (.err e)] }
  | .ok query :: rest, prCursor, totalPRs, s =>
    let totalPRs1 := totalPRs + query.Nodes.length
    let evs : List Event :=
      [.query ⟨owner, name, kPageSize, prCursor⟩ (.ok query),
       .handler query (handler s query).2]
    match (handler s query).2 with
    | some e =>
      { outcome := .returned (some e), state := (handler s query).1,
        totalPRs := totalPRs1, events := evs }
    | none =>
      if maxPRs > 0 ∧ (totalPRs1 : Int) > maxPRs then
        { outcome := .returned none, state := (handler s query).1,
          totalPRs := totalPRs1, events := evs }
      else if !query.PageInfo.HasNextPage then
        { outcome := .returned none, state := (handler s query).1,
          totalPRs := totalPRs1, events := evs }
      else
        let r := paginate owner name maxPRs handler rest
          (some query.PageInfo.EndCursor) totalPRs1 (handler s query).1
        { r with events := evs ++ r.events }

/-- The function `repoPaginationLoop` run against a remote that answers the
successive queries with `responses`; `s` is the initial state captured by the
handler. -/
def repoPaginationLoop {σ : Type} (owner name : String) (maxPRs : Int)
    (handler : σ → RepoQuery → σ × Option Error) (s : σ)
    (responses : List Response) : Run σ :=
  paginate owner name maxPRs handler responses none 0 s

/-- The pages that the queries of a run returned, in order. -/
def fetchedPages : List Event → List RepoQuery
  | [] => []
  | .query _ (.ok q) :: rest => q :: fetchedPages rest
  | _ :: rest => fetchedPages rest

/-- The pages on which the handler was invoked, in order. -/
def handledPages : List Event → List RepoQuery
  | [] => []
  | .handler q _ :: rest => q :: handledPages rest
  | _ :: rest => handledPages rest

/-- The number of queries issued. -/
def queryCount : List Event → Nat
  | [] => 0
  | .query _ _ :: rest => queryCount rest + 1
  | _ :: rest => queryCount rest

/-- Every successful query is immediately followed by the invocation of the
handler on the page it returned, a failed query is the last step, and the
handler is invoked nowhere else. -/
def handlerFollowsFetch : List Event → Bool
  | [] => true
  | [.query _ (.err _)] => true
  | .query _ (.ok q) :: .handler q' _ :: rest => decide (q = q') && handlerFollowsFetch rest
  | _ => false

/-- The responses of a run to its successive queries, in order. -/
def queryResponses : List Event → List Response
  | [] => []
  | .query _ resp :: rest => resp :: queryResponses rest
  | _ :: rest => queryResponses rest

/-- The variables of the queries of a run, in order. -/
def queryVariables : List Event → List Variables
  | [] => []
  | .query v _ :: rest => v :: queryVariables rest
  | _ :: rest => queryVariables rest

/-- The error with which a step failed, if it did: the error answered to a
query, or the error returned by the handler. -/
def Event.failure : Event → Option Error
  | .query _ (.err e) => some e
  | .handler _ (some e) => some e
  | _ => none

/-- The number of pull requests of a sequence of pages: the running total
after the last of them. -/
def countPRs (pages : List RepoQuery) : Nat :=
  (pages.map (fun q => q.Nodes.length)).sum

/-- The handler of `CmdStalePRs` as the loop sees it: it never fails. -/
def stalePRsHandler (stalePRs : List stalePR) (query : RepoQuery) :
    List stalePR × Option Error :=
  (CmdStalePRs.handler stalePRs query, none)

/-- The handler of `CmdMultiplePRs` as the loop sees it: it never fails. -/
def multiplePRsHandler (is2pr : IssueMap) (query : RepoQuery) : IssueMap × Option Error :=
  (CmdMultiplePRs.handler is2pr query, none)

/-- The function `CmdMultiplePRs` run against a remote that answers the
successive queries with `responses`: the pagination loop with the handler, from
the empty map, and then the report printed from the map, when the loop returned
nil. No report is printed when the loop returned an error; `none` stands for
that case, and for a loop still waiting for a response. -/
def CmdMultiplePRs.run (sortFunc : List Issue → List Issue) (keyOrder : List Issue)
    (owner name : String) (maxPRs : Int) (responses : List Response) :
    Option (List (Issue × List Issue)) :=
  match (repoPaginationLoop owner name maxPRs multiplePRsHandler [] responses).outcome with
  | .returned none =>
    some (CmdMultiplePRs.report sortFunc keyOrder
      (repoPaginationLoop owner name maxPRs multiplePRsHandler [] responses).state)
  | _ => none

/-! ## Reading of the claims -/

namespace CmdStalePRs

/-- The entry that a pull request contributes to the aggregate, if any. -/
def entryOf (pr : PullRequest) : Option stalePR :=
  if pr.ClosingIssuesReferences ≠ [] ∧ ∀ c ∈ pr.ClosingIssuesReferences, c.Closed = true then
    some { pr := pr.toIssue, closedIssues := pr.ClosingIssuesReferences }
  else
    none

end CmdStalePRs

namespace CmdMultiplePRs

/-- The pull requests recorded for the issue record `k`: one occurrence of the
pull request for each element of its closing-issue list that equals `k` and is
not closed, in arrival order. -/
def listings (nodes : List PullRequest) (k : Issue) : List Issue :=
  nodes.flatMap (fun pr =>
    (pr.ClosingIssuesReferences.filter (fun c => decide (c = k) && !c.Closed)).map
      (fun _ => pr.toIssue))

/-- Invariant of the map: keys are pairwise distinct and none is closed. -/
def KeysOk (m : IssueMap) : Prop :=
  (IssueMap.keys m).Nodup ∧ ∀ k ∈ IssueMap.keys m, k.Closed = false

/-- The sequence of pull requests that list the issue record `k` as a closing
issue that is not closed, each pull request once, in arrival order. -/
def prsListing (nodes : List PullRequest) (k : Issue) : List Issue :=
  (nodes.filter (fun pr => decide (k ∈ pr.ClosingIssuesReferences) && !k.Closed)).map
    (fun pr => pr.toIssue)

end CmdMultiplePRs

/-! ## Example inputs -/

/-- The zero value of `time.Time`. -/
def zeroTime : Time :=
  { wall := 0, ext := 0, loc := 0 }

/-- An issue or pull request of the example repository. -/
def exIssue (number : Int) (closed : Bool) (title : String) : Issue :=
  { Title := title, Number := number, Closed := closed,
    Url := "https://github.com/o/n/issues/" ++ title,
    CreatedAt := zeroTime, ClosedAt := zeroTime }

/-- PR #10, closing the closed issue #1. -/
def exPR10 : PullRequest :=
  { toIssue := exIssue 10 false "ten", ClosingIssuesReferences := [exIssue 1 true "one"] }

/-- PR #11, closing the open issue #2 and the closed issue #3. -/
def exPR11 : PullRequest :=
  { toIssue := exIssue 11 false "eleven",
    ClosingIssuesReferences := [exIssue 2 false "two", exIssue 3 true "three"] }

/-- PR #12, closing no issue. -/
def exPR12 : PullRequest :=
  { toIssue := exIssue 12 false "twelve", ClosingIssuesReferences := [] }

/-- Two pages: PR #10 and PR #11, then PR #12. -/
def exPagesStale : List RepoQuery :=
  [{ Description := "d", Url := "u", Nodes := [exPR10, exPR11],
     PageInfo := { EndCursor := "c1", HasNextPage := true } },
   { Description := "d", Url := "u", Nodes := [exPR12],
     PageInfo := { EndCursor := "c2", HasNextPage := false } }]

/-- Issue #5, open. -/
def exIssue5 : Issue :=
  exIssue 5 false "five"

/-- Another record with number 5: issue #5 of another repository. -/
def exIssue5b : Issue :=
  exIssue 5 false "cinq"

/-- Issue #7, open. -/
def exIssue7 : Issue :=
  exIssue 7 false "seven"

/-- One page holding the given pull requests, with no next page. -/
def exPage (nodes : List PullRequest) : RepoQuery :=
  { Description := "d", Url := "u", Nodes := nodes,
    PageInfo := { EndCursor := "c", HasNextPage := false } }

/-- PR #20, with the given closing issues. -/
def exPR20 (closing : List Issue) : PullRequest :=
  { toIssue := exIssue 20 false "twenty", ClosingIssuesReferences := closing }

/-- PR #21, with the given closing issues. -/
def exPR21 (closing : List Issue) : PullRequest :=
  { toIssue := exIssue 21 false "twenty-one", ClosingIssuesReferences := closing }

/-- One page holding the given pull requests, announcing a next page after the
cursor `endCursor`. -/
def exPageNext (nodes : List PullRequest) (endCursor : String) : RepoQuery :=
  { Description := "d", Url := "u", Nodes := nodes,
    PageInfo := { EndCursor := endCursor, HasNextPage := true } }

/-- PR #20 closing issues #7 and #5 on a first page that announces a next page,
then PR #21 closing issues #5 and #7 on the last page. -/
def exPagesTwoContested : List RepoQuery :=
  [exPageNext [exPR20 [exIssue7, exIssue5]] "c1", exPage [exPR21 [exIssue5, exIssue7]]]

/-- One page holding the single PR #20, which lists the open issue #5 twice. -/
def exPageListedTwice : RepoQuery :=
  exPage [exPR20 [exIssue5, exIssue5]]

/-- One page holding PR #20, which lists the open issue #5 twice, and PR #21,
which lists it once. -/
def exPageListedTwiceAndOnce : RepoQuery :=
  exPage [exPR20 [exIssue5, exIssue5], exPR21 [exIssue5]]

/-- A full page: 100 pull requests, announcing a next page. -/
def exFullPage : RepoQuery :=
  exPageNext (List.replicate 100 exPR12) "c"

/-- A handler that counts its invocations and fails on an empty page. -/
def exFailingHandler (count : Nat) (query : RepoQuery) : Nat × Option Error :=
  (count + 1, if query.Nodes.length = 0 then some "empty page" else none)

/-! ## Lemmas on `CmdStalePRs` -/

namespace CmdStalePRs

lemma collectClosed_go (nodes acc : List Issue) :
    nodes.foldl (fun closed closing => if closing.Closed then closed ++ [closing] else closed) acc
      = acc ++ nodes.filter (fun c => c.Closed) := by
  induction nodes generalizing acc with
  | nil => simp
  | cons c cs ih =>
    simp only [List.foldl_cons, ih]
    by_cases hc : c.Closed = true <;> simp [hc, List.filter_cons]

lemma collectClosed_eq_filter (nodes : List Issue) :
    collectClosed nodes = nodes.filter (fun c => c.Closed) := by
  simp [collectClosed, collectClosed_go]

lemma filter_length_eq_iff (nodes : List Issue) :
    (nodes.filter (fun c => c.Closed)).length = nodes.length ↔ ∀ c ∈ nodes, c.Closed = true := by
  constructor
  · intro h c hc
    have := (List.filter_eq_self (p := fun c : Issue => c.Closed) (l := nodes)).1
      (List.Sublist.eq_of_length (List.filter_sublist nodes) h)
    exact this c hc
  · intro h
    rw [(List.filter_eq_self (p := fun c : Issue => c.Closed) (l := nodes)).2 h]

lemma handlePR_eq (acc : List stalePR) (pr : PullRequest) :
    handlePR acc pr = acc ++ (entryOf pr).toList := by
  unfold handlePR entryOf
  by_cases h0 : pr.ClosingIssuesReferences = []
  · simp [h0]
  · have hlen : pr.ClosingIssuesReferences.length ≠ 0 := by
      simpa [List.length_eq_zero] using h0
    simp only [hlen, if_false, collectClosed_eq_filter, filter_length_eq_iff]
    by_cases hall : ∀ c ∈ pr.ClosingIssuesReferences, c.Closed = true
    · have hf : pr.ClosingIssuesReferences.filter (fun c => c.Closed)
          = pr.ClosingIssuesReferences := List.filter_eq_self.2 hall
      simp only [h0, hf, not_false_eq_true, true_and, ne_eq]
      rw [if_pos hall, if_pos hall]
      rfl
    · simp only [h0, not_false_eq_true, true_and, ne_eq]
      rw [if_neg hall, if_neg hall]
      simp

lemma foldl_handlePR (nodes : List PullRequest) (acc : List stalePR) :
    nodes.foldl handlePR acc = acc ++ nodes.filterMap entryOf := by
  induction nodes generalizing acc with
  | nil => simp
  | cons p ps ih =>
    rw [List.foldl_cons, ih, handlePR_eq, List.filterMap_cons]
    cases entryOf p <;> simp

lemma foldl_handler (pages : List RepoQuery) (acc : List stalePR) :
    pages.foldl handler acc = acc ++ (allNodes pages).filterMap entryOf := by
  induction pages generalizing acc with
  | nil => simp [allNodes]
  | cons q qs ih =>
    rw [List.foldl_cons, ih, handler, foldl_handlePR]
    simp [allNodes, List.filterMap_append]

/-- The aggregate is the arrival-ordered list of the entries of the pull requests. -/
lemma aggregate_eq (pages : List RepoQuery) :
    aggregate pages = (allNodes pages).filterMap entryOf := by
  simp [aggregate, foldl_handler]

lemma mem_allNodes {pages : List RepoQuery} {pr : PullRequest} :
    pr ∈ allNodes pages ↔ ∃ q ∈ pages, pr ∈ q.Nodes := by
  simp [allNodes, List.mem_flatMap]

lemma entryOf_eq_some {pr : PullRequest} {e : stalePR} (h : entryOf pr = some e) :
    (pr.ClosingIssuesReferences ≠ [] ∧ ∀ c ∈ pr.ClosingIssuesReferences, c.Closed = true)
      ∧ e = { pr := pr.toIssue, closedIssues := pr.ClosingIssuesReferences } := by
  unfold entryOf at h
  split at h
  · next hc => exact ⟨hc, (Option.some.inj h).symm⟩
  · exact Option.noConfusion h

end CmdStalePRs

/-! ## Lemmas on `CmdMultiplePRs` -/

namespace IssueMap

lemma index_set (m : IssueMap) (k k' : Issue) (v : List Issue) :
    index (set m k v) k' = if k = k' then v else index m k' := by
  induction m with
  | nil => simp [set, index]
  | cons kv rest ih =>
    obtain ⟨k0, v0⟩ := kv
    by_cases h0 : k0 = k
    · subst h0
      by_cases h1 : k0 = k' <;> simp [set, index, h1]
    · by_cases h1 : k0 = k'
      · subst h1
        have : ¬ k = k0 := fun h => h0 h.symm
        simp [set, index, h0, this]
      · simp [set, index, h0, h1, ih]

lemma keys_set (m : IssueMap) (k : Issue) (v : List Issue) :
    keys (set m k v) = if k ∈ keys m then keys m else keys m ++ [k] := by
  induction m with
  | nil => simp [set, keys]
  | cons kv rest ih =>
    obtain ⟨k0, v0⟩ := kv
    by_cases h0 : k0 = k
    · subst h0
      simp [set, keys]
    · have h0' : ¬ k = k0 := fun h => h0 h.symm
      unfold keys at ih
      simp only [set, h0, if_false, keys, List.map_cons, List.mem_cons, h0', false_or, ih]
      split <;> simp

lemma length_eq_keys (m : IssueMap) : m.length = (keys m).length := by
  simp [keys]

lemma index_ne_nil_mem_keys {m : IssueMap} {k : Issue} (h : index m k ≠ []) : k ∈ keys m := by
  induction m with
  | nil => simp [index] at h
  | cons kv rest ih =>
    obtain ⟨k0, v0⟩ := kv
    by_cases h0 : k0 = k
    · simp [keys, h0]
    · simp only [index, h0, if_false] at h
      have := ih h
      simp only [keys, List.map_cons, List.mem_cons]
      exact Or.inr this

lemma set_set (m : IssueMap) (k : Issue) (v v' : List Issue) :
    set (set m k v) k v' = set m k v' := by
  induction m with
  | nil => simp [set]
  | cons kv rest ih =>
    obtain ⟨k0, v0⟩ := kv
    by_cases h0 : k0 = k
    · simp [set, h0]
    · simp [set, h0, ih]

lemma keys_set_nodup {m : IssueMap} (h : (keys m).Nodup) (k : Issue) (v : List Issue) :
    (keys (set m k v)).Nodup := by
  rw [keys_set]
  split
  · exact h
  · next hk =>
    rw [List.nodup_append]
    refine ⟨h, List.nodup_singleton k, ?_⟩
    intro a ha hb
    rw [List.mem_singleton] at hb
    exact hk (hb ▸ ha)

lemma mem_keys_set {m : IssueMap} {k k' : Issue} {v : List Issue} :
    k' ∈ keys (set m k v) ↔ k' = k ∨ k' ∈ keys m := by
  rw [keys_set]
  split
  · next hk =>
    constructor
    · exact Or.inr
    · rintro (h | h)
      · exact h ▸ hk
      · exact h
  · simp [or_comm]

end IssueMap

namespace CmdMultiplePRs
open IssueMap

lemma handleClosing_eq (pr : Issue) (m : IssueMap) (c : Issue) :
    handleClosing pr m c = if c.Closed then m else m.set c (m.index c ++ [pr]) := by
  unfold handleClosing
  cases hc : c.Closed
  · simp only [Bool.not_false, if_true, Bool.false_eq_true, if_false]
    by_cases he : m.index c = []
    · simp only [he, if_true, index_set, List.nil_append, set_set]
    · simp [he]
  · simp

/-- The pull requests that one pull request adds under the key `k`. -/
lemma index_handleClosing (pr : Issue) (m : IssueMap) (c k : Issue) :
    (handleClosing pr m c).index k
      = m.index k ++ (if (decide (c = k) && !c.Closed) = true then [pr] else []) := by
  rw [handleClosing_eq]
  cases hc : c.Closed
  · by_cases hk : c = k
    · subst hk
      simp [index_set]
    · simp [index_set, hk]
  · simp

lemma index_foldl_handleClosing (pr : Issue) (cs : List Issue) (m : IssueMap) (k : Issue) :
    (cs.foldl (handleClosing pr) m).index k
      = m.index k ++ (cs.filter (fun c => decide (c = k) && !c.Closed)).map (fun _ => pr) := by
  induction cs generalizing m with
  | nil => simp
  | cons c cs ih =>
    rw [List.foldl_cons, ih, index_handleClosing, List.filter_cons]
    split <;> simp

lemma index_handlePR (m : IssueMap) (pr : PullRequest) (k : Issue) :
    (handlePR m pr).index k = m.index k ++ listings [pr] k := by
  unfold handlePR
  split
  · next h =>
    have : pr.ClosingIssuesReferences = [] := List.length_eq_zero.1 h
    simp [listings, this]
  · rw [index_foldl_handleClosing]
    simp [listings]

lemma listings_append (xs ys : List PullRequest) (k : Issue) :
    listings (xs ++ ys) k = listings xs k ++ listings ys k := by
  simp [listings]

lemma index_foldl_handlePR (nodes : List PullRequest) (m : IssueMap) (k : Issue) :
    (nodes.foldl handlePR m).index k = m.index k ++ listings nodes k := by
  induction nodes generalizing m with
  | nil => simp [listings]
  | cons p ps ih =>
    rw [List.foldl_cons, ih, index_handlePR, List.append_assoc, ← listings_append]
    rfl

lemma index_foldl_handler (pages : List RepoQuery) (m : IssueMap) (k : Issue) :
    (pages.foldl handler m).index k = m.index k ++ listings (allNodes pages) k := by
  induction pages generalizing m with
  | nil => simp [listings, allNodes]
  | cons q qs ih =>
    rw [List.foldl_cons, ih, handler, index_foldl_handlePR, List.append_assoc, ← listings_append]
    simp [allNodes]

/-- The slice stored under `k` in the map of a run: one pull request per listing. -/
lemma index_aggregate (pages : List RepoQuery) (k : Issue) :
    (aggregate pages).index k = listings (allNodes pages) k := by
  simp [aggregate, index_foldl_handler, index]

lemma keysOk_handleClosing {m : IssueMap} (h : KeysOk m) (pr c : Issue) :
    KeysOk (handleClosing pr m c) := by
  rw [handleClosing_eq]
  cases hc : c.Closed
  · simp only [Bool.false_eq_true, if_false]
    refine ⟨keys_set_nodup h.1 _ _, ?_⟩
    intro k hk
    rcases mem_keys_set.1 hk with rfl | hk
    · exact hc
    · exact h.2 k hk
  · simpa using h

lemma keysOk_foldl_handleClosing (pr : Issue) (cs : List Issue) {m : IssueMap} (h : KeysOk m) :
    KeysOk (cs.foldl (handleClosing pr) m) := by
  induction cs generalizing m with
  | nil => simpa using h
  | cons c cs ih => exact ih (keysOk_handleClosing h pr c)

lemma keysOk_handlePR {m : IssueMap} (h : KeysOk m) (pr : PullRequest) :
    KeysOk (handlePR m pr) := by
  unfold handlePR
  split
  · exact h
  · exact keysOk_foldl_handleClosing _ _ h

lemma keysOk_handler {m : IssueMap} (h : KeysOk m) (q : RepoQuery) :
    KeysOk (handler m q) := by
  unfold handler
  generalize q.Nodes = nodes
  induction nodes generalizing m with
  | nil => simpa using h
  | cons p ps ih => exact ih (keysOk_handlePR h p)

lemma keysOk_aggregate (pages : List RepoQuery) : KeysOk (aggregate pages) := by
  unfold aggregate
  have h0 : KeysOk ([] : IssueMap) := ⟨by simp [keys], by simp [keys]⟩
  generalize ([] : IssueMap) = m at h0
  induction pages generalizing m with
  | nil => simpa using h0
  | cons q qs ih => exact ih _ (keysOk_handler h0 q)

lemma reportLoop_go (m : IssueMap) (issues : List Issue) (out : List (Issue × List Issue)) :
    issues.foldl
        (fun out issue =>
          let prs := m.index issue
          if prs.length < 2 then out else out ++ [(issue, prs)])
        out
      = out ++ (issues.filter (fun k => decide (2 ≤ (m.index k).length))).map
          (fun k => (k, m.index k)) := by
  induction issues generalizing out with
  | nil => simp
  | cons k ks ih =>
    rw [List.foldl_cons, ih, List.filter_cons]
    by_cases h : (m.index k).length < 2
    · have h2 : ¬ 2 ≤ (m.index k).length := by omega
      simp [h, h2]
    · have h2 : 2 ≤ (m.index k).length := by omega
      simp [h, h2]

lemma reportLoop_eq (m : IssueMap) (issues : List Issue) :
    reportLoop m issues
      = (issues.filter (fun k => decide (2 ≤ (m.index k).length))).map
          (fun k => (k, m.index k)) := by
  simp [reportLoop, reportLoop_go]

lemma mem_report {sortFunc : List Issue → List Issue} {keyOrder : List Issue} {m : IssueMap}
    {e : Issue × List Issue} (h : e ∈ report sortFunc keyOrder m) :
    e.2 = m.index e.1 ∧ 2 ≤ (m.index e.1).length := by
  rw [report, reportLoop_eq, List.mem_map] at h
  obtain ⟨k, hk, rfl⟩ := h
  rw [List.mem_filter] at hk
  exact ⟨rfl, by simpa using hk.2⟩

lemma filter_listed (cs : List Issue) (k : Issue) :
    cs.filter (fun c => decide (c = k) && !c.Closed)
      = if k.Closed then [] else List.replicate (cs.count k) k := by
  cases hk : k.Closed
  · simp only [Bool.false_eq_true, if_false]
    rw [← List.filter_eq]
    apply List.filter_congr
    intro c _
    by_cases hc : c = k
    · simp [hc, hk]
    · simp [hc]
  · simp only [if_true]
    rw [List.filter_eq_nil_iff]
    intro c _
    by_cases hc : c = k
    · simp [hc, hk]
    · simp [hc]

lemma mem_of_mem_listings {nodes : List PullRequest} {k p : Issue}
    (h : p ∈ listings nodes k) :
    ∃ pr ∈ nodes, pr.toIssue = p ∧ k ∈ pr.ClosingIssuesReferences ∧ k.Closed = false := by
  simp only [listings, List.mem_flatMap, List.mem_map, List.mem_filter, Bool.and_eq_true,
    decide_eq_true_eq, Bool.not_eq_true'] at h
  obtain ⟨pr, hpr, c, ⟨hc, rfl, hcl⟩, rfl⟩ := h
  exact ⟨pr, hpr, rfl, hc, hcl⟩

lemma listings_eq_prsListing (nodes : List PullRequest) (k : Issue)
    (h : ∀ pr ∈ nodes, pr.ClosingIssuesReferences.count k ≤ 1) :
    listings nodes k = prsListing nodes k := by
  induction nodes with
  | nil => simp [listings, prsListing]
  | cons p ps ih =>
    have ih1 := ih (fun pr hpr => h pr (List.mem_cons_of_mem _ hpr))
    have hp := h p (List.mem_cons_self _ _)
    have hsplit : listings (p :: ps) k = listings [p] k ++ listings ps k :=
      listings_append [p] ps k
    rw [hsplit, ih1]
    simp only [listings, List.flatMap_cons, List.flatMap_nil, List.append_nil, filter_listed,
      prsListing, List.filter_cons]
    cases hk : k.Closed
    · by_cases hm : k ∈ p.ClosingIssuesReferences
      · have hc : p.ClosingIssuesReferences.count k = 1 := by
          have := List.count_pos_iff.2 hm
          omega
        simp [hm, hc]
      · have hc : p.ClosingIssuesReferences.count k = 0 := List.count_eq_zero.2 hm
        simp [hm, hc]
    · simp

lemma prsListing_sublist (nodes : List PullRequest) (k : Issue) :
    ∃ l : List PullRequest, l.Sublist nodes ∧ prsListing nodes k = l.map (fun pr => pr.toIssue)
      ∧ ∀ pr ∈ l, k ∈ pr.ClosingIssuesReferences ∧ k.Closed = false := by
  refine ⟨nodes.filter (fun pr => decide (k ∈ pr.ClosingIssuesReferences) && !k.Closed),
    List.filter_sublist _, rfl, ?_⟩
  intro pr hpr
  simpa using (List.mem_filter.1 hpr).2


end CmdMultiplePRs

lemma cmpNumber_neg_iff (a b : Issue) : cmpNumber a b < 0 ↔ a.Number < b.Number := by
  unfold cmpNumber
  split
  · next h => simp [h]
  · next h =>
    split <;> simp [h]

lemma isSortFunc_le {sortFunc : List Issue → List Issue} (hs : IsSortFunc sortFunc)
    (l : List Issue) : (sortFunc l).Pairwise (fun a b => a.Number ≤ b.Number) := by
  refine (hs.sorted l).imp ?_
  intro a b h
  rw [cmpNumber_neg_iff] at h
  omega

lemma isSortFunc_insertionSortCmpFunc : IsSortFunc insertionSortCmpFunc := by
  have hperm : ∀ (x : Issue) (l : List Issue), (insertCmp x l).Perm (x :: l) := by
    intro x l
    induction l with
    | nil => simp [insertCmp]
    | cons y ys ih =>
      unfold insertCmp
      split
      · exact List.Perm.refl _
      · exact ((List.Perm.cons y ih).trans (List.Perm.swap x y ys))
  have hsorted : ∀ (x : Issue) (l : List Issue),
      l.Pairwise (fun a b => ¬ cmpNumber b a < 0) →
      (insertCmp x l).Pairwise (fun a b => ¬ cmpNumber b a < 0) := by
    intro x l
    induction l with
    | nil => intro _; simp [insertCmp]
    | cons y ys ih =>
      intro h
      rw [List.pairwise_cons] at h
      unfold insertCmp
      split
      · next hxy =>
        rw [cmpNumber_neg_iff] at hxy
        refine List.Pairwise.cons ?_ (List.Pairwise.cons h.1 h.2)
        intro b hb
        rw [cmpNumber_neg_iff]
        rcases List.mem_cons.1 hb with rfl | hb
        · omega
        · have := h.1 b hb
          rw [cmpNumber_neg_iff] at this
          omega
      · next hxy =>
        refine List.Pairwise.cons ?_ (ih h.2)
        intro b hb
        rcases List.mem_cons.1 ((hperm x ys).subset hb) with rfl | hb
        · rw [cmpNumber_neg_iff] at hxy ⊢
          omega
        · exact h.1 b hb
  have hgo : ∀ (l acc : List Issue), acc.Pairwise (fun a b => ¬ cmpNumber b a < 0) →
      (l.foldl (fun sorted x => insertCmp x sorted) acc).Perm (acc ++ l)
        ∧ (l.foldl (fun sorted x => insertCmp x sorted) acc).Pairwise
            (fun a b => ¬ cmpNumber b a < 0) := by
    intro l
    induction l with
    | nil => intro acc h; simpa using h
    | cons x xs ih =>
      intro acc h
      obtain ⟨h1, h2⟩ := ih (insertCmp x acc) (hsorted x acc h)
      refine ⟨h1.trans ?_, h2⟩
      have := (hperm x acc).append_right xs
      refine this.trans ?_
      simp only [List.cons_append]
      exact (List.perm_middle).symm
  constructor
  · intro l
    simpa using (hgo l [] List.Pairwise.nil).1
  · intro l
    exact (hgo l [] List.Pairwise.nil).2

/-! ## Lemmas on `repoPaginationLoop` -/

lemma paginate_nil {σ : Type} (owner name : String) (maxPRs : Int)
    (handler : σ → RepoQuery → σ × Option Error) (cur : Option String) (t : Nat) (s : σ) :
    paginate owner name maxPRs handler [] cur t s
      = { outcome := .pending, state := s, totalPRs := t, events := [] } := by
  rw [paginate]

lemma paginate_err {σ : Type} (owner name : String) (maxPRs : Int)
    (handler : σ → RepoQuery → σ × Option Error) (e : Error) (rest : List Response)
    (cur : Option String) (t : Nat) (s : σ) :
    paginate owner name maxPRs handler (.err e :: rest) cur t s
      = { outcome := .returned (some e), state := s, totalPRs := t,
          events := [.query ⟨owner, name, kPageSize, cur⟩ (.err e)] } := by
  rw [paginate]

lemma fetchedPages_step (v : Variables) (q : RepoQuery) (res : Option Error)
    (evs : List Event) :
    fetchedPages ([Event.query v (.ok q), Event.handler q res] ++ evs)
      = q :: fetchedPages evs := rfl

/-- Invariants of the steps of a run. -/
lemma paginate_events {σ : Type} (owner name : String) (maxPRs : Int)
    (handler : σ → RepoQuery → σ × Option Error) (responses : List Response)
    (cur : Option String) (t : Nat) (s : σ) :
    let r := paginate owner name maxPRs handler responses cur t s
    handlerFollowsFetch r.events = true
      ∧ handledPages r.events = fetchedPages r.events
      ∧ queryResponses r.events <+: responses
      ∧ r.state = (fetchedPages r.events).foldl (fun st q => (handler st q).1) s
      ∧ r.totalPRs = t + countPRs (fetchedPages r.events)
      ∧ ((∀ e, r.outcome ≠ .returned (some e)) →
          (handledPages r.events).length = queryCount r.events) := by
  induction responses generalizing cur t s with
  | nil =>
    simp [paginate_nil, handlerFollowsFetch, handledPages, fetchedPages, queryResponses,
      countPRs, queryCount]
  | cons resp rest ih =>
    cases resp with
    | err e =>
      simp [paginate_err, handlerFollowsFetch, handledPages, fetchedPages, queryResponses,
        countPRs, queryCount]
    | ok q =>
      rw [paginate]
      cases hh : (handler s q).2 with
      | some e =>
        simp [handlerFollowsFetch, handledPages, fetchedPages, queryResponses,
          countPRs, queryCount]
      | none =>
        simp only
        split
        · simp [handlerFollowsFetch, handledPages, fetchedPages, queryResponses,
            countPRs, queryCount]
        · split
          · simp [handlerFollowsFetch, handledPages, fetchedPages, queryResponses,
              countPRs, queryCount]
          · have ih1 := ih (some q.PageInfo.EndCursor) (t + q.Nodes.length) (handler s q).1
            simp only at ih1
            generalize paginate owner name maxPRs handler rest (some q.PageInfo.EndCursor)
              (t + q.Nodes.length) (handler s q).1 = r1 at ih1 ⊢
            obtain ⟨h1, h2, h3, h4, h5, h6⟩ := ih1
            simp only [List.cons_append, List.nil_append]
            simp only [handlerFollowsFetch, handledPages, fetchedPages, queryResponses,
              queryCount, decide_True, Bool.true_and, h1, h2, List.foldl_cons, true_and]
            refine ⟨(List.prefix_cons_inj _).2 h3, h4, ?_, ?_⟩
            · rw [h5]
              simp only [countPRs, List.map_cons, List.sum_cons]
              omega
            · intro hne
              rw [List.length_cons, ← h2, h6 hne]


/-- A run that starts with pages that all announce a next page and keep the total within the
cap goes on to the page that follows them. -/
lemma paginate_stops {σ : Type} (owner name : String) (N : Int) (hN : 0 < N)
    (handler : σ → RepoQuery → σ × Option Error) (hh : ∀ s q, (handler s q).2 = none)
    (q : RepoQuery) (post : List RepoQuery) (pre : List RepoQuery) :
    ∀ (cur : Option String) (t : Nat) (s : σ),
      (∀ p ∈ pre, p.PageInfo.HasNextPage = true) →
      ((t + countPRs pre : Nat) : Int) ≤ N →
      (((t + countPRs (pre ++ [q]) : Nat) : Int) > N ∨ q.PageInfo.HasNextPage = false) →
      (paginate owner name N handler ((pre ++ q :: post).map Response.ok) cur t s).outcome
          = .returned none
        ∧ fetchedPages
            (paginate owner name N handler ((pre ++ q :: post).map Response.ok) cur t s).events
          = pre ++ [q] := by
  induction pre with
  | nil =>
    intro cur t s _ _ hstop
    simp only [List.nil_append, List.map_cons]
    rw [paginate]
    simp only [hh]
    simp only [countPRs, List.nil_append, List.map_cons, List.map_nil, List.sum_cons,
      List.sum_nil, Nat.add_zero] at hstop
    split
    · simp [fetchedPages]
    · next hcap =>
      have hnext : q.PageInfo.HasNextPage = false := by
        rcases hstop with h | h
        · exact absurd ⟨hN, h⟩ hcap
        · exact h
      simp [hnext, fetchedPages]
  | cons p pre ih =>
    intro cur t s hnext hle hstop
    simp only [List.cons_append, List.map_cons]
    rw [paginate]
    simp only [hh]
    have hp : p.PageInfo.HasNextPage = true := hnext p (List.mem_cons_self _ _)
    have hcount : ∀ l : List RepoQuery, countPRs (p :: l) = p.Nodes.length + countPRs l := by
      intro l; simp [countPRs]
    have hcap : ¬ (N > 0 ∧ ((t + p.Nodes.length : Nat) : Int) > N) := by
      rw [hcount] at hle
      push_cast at hle ⊢
      omega
    rw [if_neg hcap]
    simp only [hp, Bool.not_true, Bool.false_eq_true, if_false]
    have ih1 := ih (some p.PageInfo.EndCursor) (t + p.Nodes.length) (handler s p).1
      (fun x hx => hnext x (List.mem_cons_of_mem _ hx))
      (by rw [hcount] at hle; push_cast at hle ⊢; omega)
      (by
        rcases hstop with h | h
        · left
          rw [List.cons_append, hcount] at h
          push_cast at h ⊢
          omega
        · exact Or.inr h)
    refine ⟨ih1.1, ?_⟩
    rw [fetchedPages_step, ih1.2]

/-- A run that returns nil has fetched at least one page, and the last one either took the
total over the cap or announced no next page. -/
lemma paginate_returned {σ : Type} (owner name : String) (N : Int)
    (handler : σ → RepoQuery → σ × Option Error) (responses : List Response) :
    ∀ (cur : Option String) (t : Nat) (s : σ),
      (paginate owner name N handler responses cur t s).outcome = .returned none →
      ∃ pre q,
        fetchedPages (paginate owner name N handler responses cur t s).events = pre ++ [q]
          ∧ ((N > 0 ∧ ((paginate owner name N handler responses cur t s).totalPRs : Int) > N)
              ∨ q.PageInfo.HasNextPage = false) := by
  induction responses with
  | nil =>
    intro cur t s h
    rw [paginate] at h
    exact Outcome.noConfusion h
  | cons resp rest ih =>
    intro cur t s h
    cases resp with
    | err e =>
      rw [paginate] at h
      simp at h
    | ok q =>
      rw [paginate] at h ⊢
      cases hh : (handler s q).2 with
      | some e =>
        rw [hh] at h
        simp at h
      | none =>
        rw [hh] at h
        simp only at h ⊢
        split at h
        · next hcap =>
          rw [if_pos hcap]
          exact ⟨[], q, by simp [fetchedPages], Or.inl hcap⟩
        · next hcap =>
          rw [if_neg hcap]
          split at h
          · next hnext =>
            rw [if_pos hnext]
            exact ⟨[], q, by simp [fetchedPages], Or.inr (by simpa using hnext)⟩
          · next hnext =>
            rw [if_neg hnext]
            obtain ⟨pre, q1, h1, h2⟩ := ih (some q.PageInfo.EndCursor) (t + q.Nodes.length)
              (handler s q).1 h
            refine ⟨q :: pre, q1, ?_, h2⟩
            rw [fetchedPages_step, h1]
            rfl

/-! ## Further lemmas -/

/-- The cases of one iteration of the loop on a page. -/
lemma paginate_ok_cases {σ : Type} (owner name : String) (maxPRs : Int)
    (handler : σ → RepoQuery → σ × Option Error) (q : RepoQuery) (rest : List Response)
    (cur : Option String) (t : Nat) (s : σ) :
    let r := paginate owner name maxPRs handler (.ok q :: rest) cur t s
    let r1 := paginate owner name maxPRs handler rest (some q.PageInfo.EndCursor)
      (t + q.Nodes.length) (handler s q).1
    (r.events = [.query ⟨owner, name, kPageSize, cur⟩ (.ok q), .handler q (handler s q).2]
        ∧ r.outcome = .returned (handler s q).2
        ∧ ((handler s q).2 = none →
            (maxPRs > 0 ∧ ((t + q.Nodes.length : Nat) : Int) > maxPRs)
              ∨ q.PageInfo.HasNextPage = false))
      ∨ ((handler s q).2 = none
        ∧ ¬ (maxPRs > 0 ∧ ((t + q.Nodes.length : Nat) : Int) > maxPRs)
        ∧ q.PageInfo.HasNextPage = true
        ∧ r.events = .query ⟨owner, name, kPageSize, cur⟩ (.ok q)
            :: .handler q none :: r1.events
        ∧ r.outcome = r1.outcome) := by
  intro r r1
  simp only [r, r1]
  rw [paginate]
  cases hh : (handler s q).2 with
  | some e =>
    left
    simp
  | none =>
    simp only
    by_cases hcap : maxPRs > 0 ∧ ((t + q.Nodes.length : Nat) : Int) > maxPRs
    · left
      rw [if_pos hcap]
      exact ⟨rfl, rfl, fun _ => Or.inl hcap⟩
    · rw [if_neg hcap]
      cases hn : q.PageInfo.HasNextPage with
      | false =>
        left
        simp
      | true =>
        right
        refine ⟨trivial, hcap, rfl, ?_, ?_⟩ <;> simp


/-- A step that failed is the last step, and the loop returns its error. -/
lemma paginate_failure_last {σ : Type} (owner name : String) (maxPRs : Int)
    (handler : σ → RepoQuery → σ × Option Error) (responses : List Response) :
    ∀ (cur : Option String) (t : Nat) (s : σ) (pre post : List Event) (x : Event) (e : Error),
      (paginate owner name maxPRs handler responses cur t s).events = pre ++ x :: post →
      x.failure = some e →
      post = [] ∧ (paginate owner name maxPRs handler responses cur t s).outcome
        = .returned (some e) := by
  induction responses with
  | nil =>
    intro cur t s pre post x e hev _
    rw [paginate_nil] at hev
    simp at hev
  | cons resp rest ih =>
    intro cur t s pre post x e hev hx
    cases resp with
    | err e1 =>
      rw [paginate_err] at hev ⊢
      simp only at hev ⊢
      match pre, hev with
      | [], hev =>
        simp only [List.nil_append, List.cons.injEq] at hev
        obtain ⟨hx1, hpost⟩ := hev
        rw [← hx1] at hx
        simp only [Event.failure, Option.some.injEq] at hx
        exact ⟨hpost.symm, by rw [hx]⟩
      | _ :: pre1, hev =>
        simp at hev
    | ok q =>
      rcases paginate_ok_cases owner name maxPRs handler q rest cur t s with
        ⟨h1, h2, _⟩ | ⟨h0, _, _, h1, h2⟩
      · rw [h1] at hev
        rw [h2]
        match pre, hev with
        | [], hev =>
          simp only [List.nil_append, List.cons.injEq] at hev
          rw [← hev.1] at hx
          simp [Event.failure] at hx
        | [_], hev =>
          simp only [List.cons_append, List.nil_append, List.cons.injEq] at hev
          obtain ⟨_, hx1, hpost⟩ := hev
          rw [← hx1] at hx
          cases hres : (handler s q).2 with
          | none => rw [hres] at hx; simp [Event.failure] at hx
          | some e2 =>
            rw [hres] at hx
            simp only [Event.failure, Option.some.injEq] at hx
            exact ⟨hpost.symm, by rw [hx]⟩
        | _ :: _ :: _ :: _, hev =>
          simp at hev
      · rw [h1] at hev
        rw [h2]
        match pre, hev with
        | [], hev =>
          simp only [List.nil_append, List.cons.injEq] at hev
          rw [← hev.1] at hx
          simp [Event.failure] at hx
        | [_], hev =>
          simp only [List.cons_append, List.nil_append, List.cons.injEq] at hev
          rw [← hev.2.1] at hx
          simp [Event.failure] at hx
        | _ :: _ :: pre1, hev =>
          simp only [List.cons_append, List.cons.injEq] at hev
          exact ih _ _ _ pre1 post x e hev.2.2 hx

/-- A run that returns an error ends with the step that failed with it. -/
lemma paginate_error_from_failure {σ : Type} (owner name : String) (maxPRs : Int)
    (handler : σ → RepoQuery → σ × Option Error) (responses : List Response) :
    ∀ (cur : Option String) (t : Nat) (s : σ) (e : Error),
      (paginate owner name maxPRs handler responses cur t s).outcome = .returned (some e) →
      ∃ pre x, (paginate owner name maxPRs handler responses cur t s).events = pre ++ [x]
        ∧ x.failure = some e := by
  induction responses with
  | nil =>
    intro cur t s e h
    rw [paginate_nil] at h
    simp at h
  | cons resp rest ih =>
    intro cur t s e h
    cases resp with
    | err e1 =>
      rw [paginate_err] at h ⊢
      simp only [Outcome.returned.injEq, Option.some.injEq] at h
      exact ⟨[], _, rfl, by simp [Event.failure, h]⟩
    | ok q =>
      rcases paginate_ok_cases owner name maxPRs handler q rest cur t s with
        ⟨h1, h2, _⟩ | ⟨h0, _, _, h1, h2⟩
      · rw [h2] at h
        rw [h1]
        simp only [Outcome.returned.injEq] at h
        refine ⟨[_], _, rfl, ?_⟩
        rw [h]
        rfl
      · rw [h2] at h
        obtain ⟨pre, x, hev, hx⟩ := ih _ _ _ e h
        rw [h1, hev]
        exact ⟨_ :: _ :: pre, x, rfl, hx⟩

/-- The variables of the queries of a run: the cursor of the first one is the
current cursor, the cursor of each later one is the end cursor of the page
fetched just before. -/
lemma paginate_variables {σ : Type} (owner name : String) (maxPRs : Int)
    (handler : σ → RepoQuery → σ × Option Error) (responses : List Response) :
    ∀ (cur : Option String) (t : Nat) (s : σ),
      queryVariables (paginate owner name maxPRs handler responses cur t s).events
        = ((cur :: (fetchedPages
              (paginate owner name maxPRs handler responses cur t s).events).map
                (fun q => some q.PageInfo.EndCursor)).take
            (queryCount (paginate owner name maxPRs handler responses cur t s).events)).map
          (fun c => { repoOwner := owner, repoName := name, kPageSize := kPageSize,
                      prCursor := c }) := by
  induction responses with
  | nil =>
    intro cur t s
    rw [paginate_nil]
    simp [queryVariables, queryCount]
  | cons resp rest ih =>
    intro cur t s
    cases resp with
    | err e1 =>
      rw [paginate_err]
      simp [queryVariables, queryCount, fetchedPages]
    | ok q =>
      rcases paginate_ok_cases owner name maxPRs handler q rest cur t s with
        ⟨h1, _, _⟩ | ⟨_, _, _, h1, _⟩
      · rw [h1]
        simp [queryVariables, queryCount, fetchedPages]
      · rw [h1]
        simp only [queryVariables, queryCount, fetchedPages, List.map_cons, List.take_succ_cons,
          List.cons.injEq, true_and]
        exact ih _ _ _


/-- Without a cap, a run that starts with pages that all announce a next page goes on to
the page that follows them and stops there when it announces none. -/
lemma paginate_unbounded_stops {σ : Type} (owner name : String)
    (handler : σ → RepoQuery → σ × Option Error) (hh : ∀ s q, (handler s q).2 = none)
    (q : RepoQuery) (post : List RepoQuery) (pre : List RepoQuery) :
    ∀ (cur : Option String) (t : Nat) (s : σ),
      (∀ p ∈ pre, p.PageInfo.HasNextPage = true) →
      q.PageInfo.HasNextPage = false →
      (paginate owner name 0 handler ((pre ++ q :: post).map Response.ok) cur t s).outcome
          = .returned none
        ∧ fetchedPages
            (paginate owner name 0 handler ((pre ++ q :: post).map Response.ok) cur t s).events
          = pre ++ [q] := by
  induction pre with
  | nil =>
    intro cur t s _ hq
    simp only [List.nil_append, List.map_cons]
    rcases paginate_ok_cases owner name 0 handler q (post.map Response.ok) cur t s with
      ⟨h1, h2, _⟩ | ⟨_, _, h3, _, _⟩
    · rw [h1, h2, hh]
      exact ⟨rfl, rfl⟩
    · rw [hq] at h3
      exact Bool.noConfusion h3
  | cons p pre ih =>
    intro cur t s hnext hq
    simp only [List.cons_append, List.map_cons]
    rcases paginate_ok_cases owner name 0 handler p ((pre ++ q :: post).map Response.ok)
      cur t s with ⟨_, _, h3⟩ | ⟨_, _, _, h1, h2⟩
    · rcases h3 (hh s p) with h | h
      · exact absurd h.1 (by decide)
      · rw [hnext p (List.mem_cons_self _ _)] at h
        exact Bool.noConfusion h
    · obtain ⟨ih1, ih2⟩ := ih (some p.PageInfo.EndCursor) (t + p.Nodes.length)
        (handler s p).1 (fun x hx => hnext x (List.mem_cons_of_mem _ hx)) hq
      rw [h1, h2]
      refine ⟨ih1, ?_⟩
      simp only [fetchedPages, ih2, List.cons_append]

/-- Without a cap, a run over pages that all announce a next page fetches them all and
waits for more. -/
lemma paginate_unbounded_pending {σ : Type} (owner name : String)
    (handler : σ → RepoQuery → σ × Option Error) (hh : ∀ s q, (handler s q).2 = none)
    (pages : List RepoQuery) :
    ∀ (cur : Option String) (t : Nat) (s : σ),
      (∀ p ∈ pages, p.PageInfo.HasNextPage = true) →
      (paginate owner name 0 handler (pages.map Response.ok) cur t s).outcome = .pending
        ∧ fetchedPages (paginate owner name 0 handler (pages.map Response.ok) cur t s).events
          = pages := by
  induction pages with
  | nil =>
    intro cur t s _
    simp only [List.map_nil]
    rw [paginate_nil]
    exact ⟨rfl, rfl⟩
  | cons p pages ih =>
    intro cur t s hnext
    simp only [List.map_cons]
    rcases paginate_ok_cases owner name 0 handler p (pages.map Response.ok)
      cur t s with ⟨_, _, h3⟩ | ⟨_, _, _, h1, h2⟩
    · rcases h3 (hh s p) with h | h
      · exact absurd h.1 (by decide)
      · rw [hnext p (List.mem_cons_self _ _)] at h
        exact Bool.noConfusion h
    · obtain ⟨ih1, ih2⟩ := ih (some p.PageInfo.EndCursor) (t + p.Nodes.length)
        (handler s p).1 (fun x hx => hnext x (List.mem_cons_of_mem _ hx))
      rw [h1, h2]
      refine ⟨ih1, ?_⟩
      simp only [fetchedPages, ih2]

/-- Every fetched page but the last one announced a next page. -/
lemma paginate_fetched_init {σ : Type} (owner name : String) (maxPRs : Int)
    (handler : σ → RepoQuery → σ × Option Error) (responses : List Response) :
    ∀ (cur : Option String) (t : Nat) (s : σ),
      ∀ p ∈ (fetchedPages (paginate owner name maxPRs handler responses cur t s).events).dropLast,
        p.PageInfo.HasNextPage = true := by
  induction responses with
  | nil =>
    intro cur t s p hp
    rw [paginate_nil] at hp
    simp [fetchedPages] at hp
  | cons resp rest ih =>
    intro cur t s p hp
    cases resp with
    | err e1 =>
      rw [paginate_err] at hp
      simp [fetchedPages] at hp
    | ok q =>
      rcases paginate_ok_cases owner name maxPRs handler q rest cur t s with
        ⟨h1, _, _⟩ | ⟨_, _, h3, h1, _⟩
      · rw [h1] at hp
        simp [fetchedPages] at hp
      · rw [h1] at hp
        simp only [fetchedPages] at hp
        cases hf : fetchedPages (paginate owner name maxPRs handler rest
            (some q.PageInfo.EndCursor) (t + q.Nodes.length) (handler s q).1).events with
        | nil =>
          rw [hf] at hp
          simp at hp
        | cons a l =>
          have ih1 := ih (some q.PageInfo.EndCursor) (t + q.Nodes.length) (handler s q).1
          rw [hf] at hp ih1
          rw [List.dropLast_cons₂, List.mem_cons] at hp
          rcases hp with rfl | hp
          · exact h3
          · exact ih1 p hp

/-- With a cap and at least one pull request on every page, a run over more pages than the
cap leaves room for returns, and issues at most that many queries. -/
lemma paginate_terminates {σ : Type} (owner name : String) (N : Int) (hN : 0 < N)
    (handler : σ → RepoQuery → σ × Option Error) (pages : List RepoQuery) :
    ∀ (cur : Option String) (t : Nat) (s : σ),
      (∀ p ∈ pages, p.Nodes ≠ []) →
      (t : Int) ≤ N → N < (t : Int) + pages.length →
      (∃ err, (paginate owner name N handler (pages.map Response.ok) cur t s).outcome
          = .returned err ∧ ((∀ s q, (handler s q).2 = none) → err = none))
        ∧ (queryCount (paginate owner name N handler (pages.map Response.ok) cur t s).events
            : Int) + t ≤ N + 1 := by
  induction pages with
  | nil =>
    intro cur t s _ h1 h2
    simp only [List.length_nil, Nat.cast_zero, add_zero] at h2
    omega
  | cons p pages ih =>
    intro cur t s hne hle hlt
    simp only [List.map_cons]
    have hp : 1 ≤ p.Nodes.length := by
      have := hne p (List.mem_cons_self _ _)
      exact List.length_pos.2 this
    rcases paginate_ok_cases owner name N handler p (pages.map Response.ok)
      cur t s with ⟨h1, h2, _⟩ | ⟨_, hcap, _, h1, h2⟩
    · rw [h1, h2]
      refine ⟨⟨_, rfl, fun hh => hh s p⟩, ?_⟩
      simp only [queryCount]
      push_cast
      omega
    · have hle1 : ((t + p.Nodes.length : Nat) : Int) ≤ N := by
        by_contra hc
        exact hcap ⟨hN, by omega⟩
      have hlt1 : N < ((t + p.Nodes.length : Nat) : Int) + pages.length := by
        simp only [List.length_cons] at hlt
        push_cast at hlt ⊢
        omega
      obtain ⟨ih1, ih2⟩ := ih (some p.PageInfo.EndCursor) (t + p.Nodes.length)
        (handler s p).1 (fun x hx => hne x (List.mem_cons_of_mem _ hx)) hle1 hlt1
      rw [h1, h2]
      refine ⟨ih1, ?_⟩
      simp only [queryCount]
      push_cast at ih2 ⊢
      omega

/-- With a cap and pages of at most `kPageSize` pull requests, the counter never
passes the cap by more than one page. -/
lemma paginate_total_le {σ : Type} (owner name : String) (N : Int) (hN : 0 < N)
    (handler : σ → RepoQuery → σ × Option Error) (pages : List RepoQuery) :
    ∀ (cur : Option String) (t : Nat) (s : σ),
      (∀ p ∈ pages, (p.Nodes.length : Int) ≤ kPageSize) → (t : Int) ≤ N →
      ((paginate owner name N handler (pages.map Response.ok) cur t s).totalPRs : Int)
        ≤ N + kPageSize := by
  induction pages with
  | nil =>
    intro cur t s _ ht
    simp only [List.map_nil]
    rw [paginate_nil]
    simp only [kPageSize]
    omega
  | cons p pages ih =>
    intro cur t s hsize ht
    have hp := hsize p (List.mem_cons_self _ _)
    have h5 := (paginate_events owner name N handler ((p :: pages).map Response.ok)
      cur t s).2.2.2.2.1
    simp only at h5
    simp only [List.map_cons] at h5 ⊢
    rcases paginate_ok_cases owner name N handler p (pages.map Response.ok)
      cur t s with ⟨h1, _, _⟩ | ⟨_, hcap, _, h1, _⟩
    · rw [h5, h1]
      simp only [fetchedPages, countPRs, List.map_cons, List.map_nil, List.sum_cons,
        List.sum_nil]
      push_cast
      omega
    · have hle1 : ((t + p.Nodes.length : Nat) : Int) ≤ N := by
        by_contra hc
        exact hcap ⟨hN, by omega⟩
      have ih1 := ih (some p.PageInfo.EndCursor) (t + p.Nodes.length) (handler s p).1
        (fun x hx => hsize x (List.mem_cons_of_mem _ hx)) hle1
      have h6 := (paginate_events owner name N handler (pages.map Response.ok)
        (some p.PageInfo.EndCursor) (t + p.Nodes.length) (handler s p).1).2.2.2.2.1
      simp only at h6
      rw [h5, h1]
      rw [h6] at ih1
      simp only [fetchedPages, countPRs, List.map_cons, List.sum_cons]
      simp only [countPRs] at ih1
      push_cast at ih1 ⊢
      omega

namespace CmdStalePRs

lemma filterMap_entryOf_sublist (nodes : List PullRequest) :
    (nodes.filterMap entryOf).Sublist
      (nodes.map (fun pr =>
        ({ pr := pr.toIssue, closedIssues := pr.ClosingIssuesReferences } : stalePR))) := by
  induction nodes with
  | nil => simp
  | cons p ps ih =>
    rw [List.filterMap_cons, List.map_cons]
    cases he : entryOf p with
    | none => exact ih.cons _
    | some e =>
      obtain ⟨_, rfl⟩ := entryOf_eq_some he
      exact ih.cons₂ _

end CmdStalePRs

namespace CmdMultiplePRs

open IssueMap

lemma foldl_handler_eq (pages : List RepoQuery) (m : IssueMap) :
    pages.foldl handler m = (allNodes pages).foldl handlePR m := by
  induction pages generalizing m with
  | nil => simp [allNodes]
  | cons q qs ih =>
    rw [List.foldl_cons, ih]
    simp [allNodes, handler, List.foldl_append]

/-- An issue of the report is not closed and its PR list is the list of its
listings, at least two; when the pull requests have pairwise distinct numbers
and none lists the issue more than once, the PR list is the sequence of the
pull requests that list the issue and two of them have distinct numbers. -/
lemma report_entry_listings (sortFunc : List Issue → List Issue) (keyOrder : List Issue)
    (pages : List RepoQuery) (e : Issue × List Issue)
    (he : e ∈ finalReport sortFunc keyOrder pages) :
    e.1.Closed = false ∧ e.2 = listings (allNodes pages) e.1
      ∧ 2 ≤ (listings (allNodes pages) e.1).length ∧
    ((∀ pr ∈ allNodes pages, pr.ClosingIssuesReferences.count e.1 ≤ 1) →
      e.2 = prsListing (allNodes pages) e.1 ∧
      (((allNodes pages).map (fun pr => pr.Number)).Nodup →
        ∃ p1 ∈ allNodes pages, ∃ p2 ∈ allNodes pages,
          p1.Number ≠ p2.Number ∧ e.1 ∈ p1.ClosingIssuesReferences
            ∧ e.1 ∈ p2.ClosingIssuesReferences)) := by
  obtain ⟨heq, hlen⟩ := mem_report he
  rw [index_aggregate] at hlen heq
  have hopen : e.1.Closed = false := by
    cases hl : listings (allNodes pages) e.1 with
    | nil => rw [hl] at hlen; simp at hlen
    | cons p ps =>
      obtain ⟨_, _, _, _, h⟩ := mem_of_mem_listings (hl ▸ List.mem_cons_self p ps)
      exact h
  refine ⟨hopen, heq, hlen, ?_⟩
  intro hcount
  rw [listings_eq_prsListing _ _ hcount] at hlen heq
  refine ⟨heq, ?_⟩
  intro hnum
  obtain ⟨l, hsub, hl, hmem⟩ := prsListing_sublist (allNodes pages) e.1
  rw [hl, List.length_map] at hlen
  match l, hsub, hmem, hlen with
  | p1 :: p2 :: rest, hsub, hmem, _ =>
    have hnd : ((p1 :: p2 :: rest).map (fun pr => pr.Number)).Nodup :=
      (hsub.map _).nodup hnum
    refine ⟨p1, hsub.subset (by simp), p2, hsub.subset (by simp), ?_,
      (hmem p1 (by simp)).1, (hmem p2 (by simp)).1⟩
    intro heq2
    simp [heq2] at hnd

/-- The issues of the report: the elements of the sorted slice that have at least two pull
requests in the map. -/
lemma report_map_fst (sortFunc : List Issue → List Issue) (keyOrder : List Issue)
    (m : IssueMap) :
    (report sortFunc keyOrder m).map Prod.fst
      = (sortFunc (issuesSlice m keyOrder)).filter
          (fun k => decide (2 ≤ (m.index k).length)) := by
  simp [report, reportLoop_eq, Function.comp_def]

/-- The issues of the report, up to their order: the keys with at least two pull requests,
and the padding when the zero value is such a key. -/
lemma report_map_fst_perm {sortFunc : List Issue → List Issue} (hs : IsSortFunc sortFunc)
    {keyOrder : List Issue} {m : IssueMap} (hk : keyOrder.Perm m.keys) :
    ((report sortFunc keyOrder m).map Prod.fst).Perm
      ((List.replicate m.length zeroIssue ++ m.keys).filter
        (fun k => decide (2 ≤ (m.index k).length))) := by
  rw [report_map_fst]
  refine ((hs.perm _).filter _).trans ?_
  exact ((List.Perm.append_left _ hk)).filter _

/-- When no two keys have the same number, the report depends neither on the order in which
the keys are enumerated nor on the sort. -/
lemma report_order_independent {sort1 sort2 : List Issue → List Issue}
    (hs1 : IsSortFunc sort1) (hs2 : IsSortFunc sort2) {order1 order2 : List Issue}
    {m : IssueMap} (hk1 : order1.Perm m.keys) (hk2 : order2.Perm m.keys)
    (hinj : ∀ a ∈ m.keys, ∀ b ∈ m.keys, a.Number = b.Number → a = b) :
    report sort1 order1 m = report sort2 order2 m := by
  have hfst : (report sort1 order1 m).map Prod.fst = (report sort2 order2 m).map Prod.fst := by
    refine @List.Perm.eq_of_sorted Issue (fun a b : Issue => a.Number ≤ b.Number) _ _ ?_ ?_ ?_ ?_
    · intro a b ha hb hab hba
      have hmem : ∀ (s : List Issue → List Issue) (o : List Issue) (x : Issue),
          x ∈ (report s o m).map Prod.fst → x ∈ m.keys := by
        intro s o x hx
        rw [report_map_fst, List.mem_filter] at hx
        have h2 : 2 ≤ (m.index x).length := by simpa using hx.2
        exact index_ne_nil_mem_keys (by intro h0; rw [h0] at h2; simp at h2)
      exact hinj a (hmem _ _ a ha) b (hmem _ _ b hb) (le_antisymm hab hba)
    · rw [report_map_fst]
      exact (isSortFunc_le hs1 _).filter _
    · rw [report_map_fst]
      exact (isSortFunc_le hs2 _).filter _
    · exact (report_map_fst_perm hs1 hk1).trans (report_map_fst_perm hs2 hk2).symm
  have hrep : ∀ (s : List Issue → List Issue) (o : List Issue),
      report s o m = ((report s o m).map Prod.fst).map (fun k => (k, m.index k)) := by
    intro s o
    simp [report, reportLoop_eq, Function.comp_def]
  rw [hrep sort1 order1, hrep sort2 order2, hfst]

end CmdMultiplePRs

/-! ## Claims on `CmdStalePRs` -/

namespace CmdStalePRs

/-- C1: for every sequence of pages and every pull request in it that has at
least one closing issue and whose closing issues are all closed, the stale-PR
aggregate contains an entry for that pull request, and the closed-issue list of
the entry is the full closing-issue list of the pull request, in the same
order. -/
theorem all_closed_included (pages : List RepoQuery) (q : RepoQuery) (hq : q ∈ pages)
    (pr : PullRequest) (hpr : pr ∈ q.Nodes)
    (hne : pr.ClosingIssuesReferences ≠ [])
    (hall : ∀ c ∈ pr.ClosingIssuesReferences, c.Closed = true) :
    ∃ e ∈ aggregate pages, e.pr = pr.toIssue ∧ e.closedIssues = pr.ClosingIssuesReferences := by
  refine ⟨{ pr := pr.toIssue, closedIssues := pr.ClosingIssuesReferences }, ?_, rfl, rfl⟩
  rw [aggregate_eq, List.mem_filterMap]
  refine ⟨pr, mem_allNodes.2 ⟨q, hq, hpr⟩, ?_⟩
  unfold entryOf
  rw [if_pos ⟨hne, hall⟩]

/-- Witness of C1: PR #10 of the example, whose only closing issue #1 is closed. -/
theorem all_closed_included_witness :
    ∃ e ∈ aggregate exPagesStale,
      e.pr = exPR10.toIssue ∧ e.closedIssues = exPR10.ClosingIssuesReferences :=
  all_closed_included exPagesStale
    { Description := "d", Url := "u", Nodes := [exPR10, exPR11],
      PageInfo := { EndCursor := "c1", HasNextPage := true } }
    (by decide) exPR10 (by decide) (by decide) (by decide)

/-- C2: for every sequence of pages, every entry of the stale-PR aggregate is
the entry of a pull request of the pages whose closing-issue list is not empty;
so a pull request that comes with an empty closing-issue list is never in the
aggregate. -/
theorem empty_closing_never_included (pages : List RepoQuery) :
    (∀ e ∈ aggregate pages, ∃ pr ∈ allNodes pages,
        pr.ClosingIssuesReferences ≠ [] ∧ e.pr = pr.toIssue
          ∧ e.closedIssues = pr.ClosingIssuesReferences) ∧
    (∀ x : Issue,
        (∀ pr ∈ allNodes pages, pr.toIssue = x → pr.ClosingIssuesReferences = []) →
        ∀ e ∈ aggregate pages, e.pr ≠ x) := by
  have h1 : ∀ e ∈ aggregate pages, ∃ pr ∈ allNodes pages,
      pr.ClosingIssuesReferences ≠ [] ∧ e.pr = pr.toIssue
        ∧ e.closedIssues = pr.ClosingIssuesReferences := by
    intro e he
    rw [aggregate_eq, List.mem_filterMap] at he
    obtain ⟨pr, hpr, hent⟩ := he
    obtain ⟨hc, rfl⟩ := entryOf_eq_some hent
    exact ⟨pr, hpr, hc.1, rfl, rfl⟩
  refine ⟨h1, ?_⟩
  intro x hx e he hex
  obtain ⟨pr, hpr, hne, hp, _⟩ := h1 e he
  exact hne (hx pr hpr (by rw [← hp, hex]))

/-- Witness of C2: PR #12 of the example has no closing issue and is in no
entry of the aggregate. -/
theorem empty_closing_never_included_witness :
    ∀ e ∈ aggregate exPagesStale, e.pr ≠ exPR12.toIssue :=
  (empty_closing_never_included exPagesStale).2 exPR12.toIssue (by decide)

/-- C3: for every sequence of pages, every entry of the stale-PR aggregate is
the entry of a pull request of the pages all of whose closing issues are
closed; so a pull request that comes with a closing issue that is not closed is
never in the aggregate. -/
theorem only_all_closed_included (pages : List RepoQuery) :
    (∀ e ∈ aggregate pages, ∃ pr ∈ allNodes pages,
        e.pr = pr.toIssue ∧ e.closedIssues = pr.ClosingIssuesReferences
          ∧ ∀ c ∈ pr.ClosingIssuesReferences, c.Closed = true) ∧
    (∀ x : Issue,
        (∀ pr ∈ allNodes pages, pr.toIssue = x →
          ∃ c ∈ pr.ClosingIssuesReferences, c.Closed = false) →
        ∀ e ∈ aggregate pages, e.pr ≠ x) := by
  have h1 : ∀ e ∈ aggregate pages, ∃ pr ∈ allNodes pages,
      e.pr = pr.toIssue ∧ e.closedIssues = pr.ClosingIssuesReferences
        ∧ ∀ c ∈ pr.ClosingIssuesReferences, c.Closed = true := by
    intro e he
    rw [aggregate_eq, List.mem_filterMap] at he
    obtain ⟨pr, hpr, hent⟩ := he
    obtain ⟨hc, rfl⟩ := entryOf_eq_some hent
    exact ⟨pr, hpr, rfl, rfl, hc.2⟩
  refine ⟨h1, ?_⟩
  intro x hx e he hex
  obtain ⟨pr, hpr, hp, _, hall⟩ := h1 e he
  obtain ⟨c, hc, hopen⟩ := hx pr hpr (by rw [← hp, hex])
  rw [hall c hc] at hopen
  exact Bool.noConfusion hopen

/-- Witness of C3: PR #11 of the example closes the open issue #2 and is in no
entry of the aggregate. -/
theorem only_all_closed_included_witness :
    ∀ e ∈ aggregate exPagesStale, e.pr ≠ exPR11.toIssue :=
  (only_all_closed_included exPagesStale).2 exPR11.toIssue (by decide)

end CmdStalePRs

/-! ## Claims on `CmdMultiplePRs` -/

namespace CmdMultiplePRs

open IssueMap

/-- C4, evaluated at the input where it fails: the remote answers with one
page that holds the single pull request #20, whose closing-issue list names the
open issue #5 twice. The command prints a report that lists issue #5, with PR
#20 twice, although the page holds no two pull requests with distinct numbers:
a single pull request closes the issue. -/
theorem one_pr_listed_twice_is_reported :
    run insertionSortCmpFunc [exIssue5] "o" "n" 0 [.ok exPageListedTwice]
        = some [(exIssue5, [exIssue 20 false "twenty", exIssue 20 false "twenty"])]
      ∧ finalReport insertionSortCmpFunc [exIssue5] [exPageListedTwice]
        = [(exIssue5, [exIssue 20 false "twenty", exIssue 20 false "twenty"])]
      ∧ [exIssue5].Perm (aggregate [exPageListedTwice]).keys
      ∧ ¬ ∃ p1 ∈ allNodes [exPageListedTwice],
          ∃ p2 ∈ allNodes [exPageListedTwice], p1.Number ≠ p2.Number := by
  decide

/-- Counterexample to C5: PR #20 and PR #21 both list two open issue records
with the number 5 that differ in title and URL. The records are two keys of the
map, and the report has two entries with the issue number 5. -/
theorem report_strictly_ascending_counterexample :
    (finalReport insertionSortCmpFunc [exIssue5, exIssue5b]
        [exPage [exPR20 [exIssue5, exIssue5b], exPR21 [exIssue5, exIssue5b]]]).map
      (fun e => e.1.Number) = [5, 5]
    ∧ ¬ ((finalReport insertionSortCmpFunc [exIssue5, exIssue5b]
        [exPage [exPR20 [exIssue5, exIssue5b], exPR21 [exIssue5, exIssue5b]]]).map
      (fun e => e.1.Number)).Pairwise (· < ·) := by
  decide

/-- C5, amended: for every sequence of pages and every sort that meets the
contract of `slices.SortFunc`, the issue numbers of the successive entries of
the final report are ascending (each at most the next); they are strictly
ascending, so that no number is in two entries, when the keys are enumerated
once each, open closing-issue records with the same number are the same record,
and every open closing issue has a positive number. -/
theorem report_numbers_ascending (sortFunc : List Issue → List Issue)
    (hs : IsSortFunc sortFunc) (keyOrder : List Issue) (pages : List RepoQuery) :
    ((finalReport sortFunc keyOrder pages).map (fun e => e.1.Number)).Pairwise (· ≤ ·) ∧
    (keyOrder.Perm (aggregate pages).keys →
      (∀ p1 ∈ allNodes pages, ∀ c1 ∈ p1.ClosingIssuesReferences,
        ∀ p2 ∈ allNodes pages, ∀ c2 ∈ p2.ClosingIssuesReferences,
          c1.Closed = false → c2.Closed = false → c1.Number = c2.Number → c1 = c2) →
      (∀ p ∈ allNodes pages, ∀ c ∈ p.ClosingIssuesReferences, c.Closed = false → 0 < c.Number) →
      ((finalReport sortFunc keyOrder pages).map (fun e => e.1.Number)).Pairwise (· < ·)) := by
  set m := aggregate pages with hm
  set P : Issue → Bool := fun k => decide (2 ≤ (m.index k).length) with hP
  have hrep : (finalReport sortFunc keyOrder pages).map (fun e => e.1.Number)
      = ((sortFunc (issuesSlice m keyOrder)).filter P).map (fun k => k.Number) := by
    simp [finalReport, report, reportLoop_eq, ← hm, hP, Function.comp_def]
  have hle : ((sortFunc (issuesSlice m keyOrder)).filter P).Pairwise
      (fun a b => a.Number ≤ b.Number) :=
    (isSortFunc_le hs _).filter P
  have hlisted : ∀ k, P k = true →
      ∃ pr ∈ allNodes pages, k ∈ pr.ClosingIssuesReferences ∧ k.Closed = false := by
    intro k hk
    have h2 : 2 ≤ (listings (allNodes pages) k).length := by
      have : 2 ≤ (m.index k).length := by simpa [hP] using hk
      rwa [hm, index_aggregate] at this
    cases hl : listings (allNodes pages) k with
    | nil => rw [hl] at h2; simp at h2
    | cons p ps =>
      obtain ⟨pr, hpr, _, hmem, hcl⟩ := mem_of_mem_listings (hl ▸ List.mem_cons_self p ps)
      exact ⟨pr, hpr, hmem, hcl⟩
  rw [hrep]
  refine ⟨List.pairwise_map.2 hle, ?_⟩
  intro hperm hinj hpos
  have hzero : P zeroIssue = false := by
    cases hz : P zeroIssue with
    | false => rfl
    | true =>
      obtain ⟨pr, hpr, hmem, hcl⟩ := hlisted zeroIssue hz
      have := hpos pr hpr zeroIssue hmem hcl
      simp [zeroIssue] at this
  have hnd : ((sortFunc (issuesSlice m keyOrder)).filter P).Nodup := by
    have h1 : ((sortFunc (issuesSlice m keyOrder)).filter P).Perm (keyOrder.filter P) := by
      refine ((hs.perm _).filter P).trans ?_
      have : (List.replicate m.length zeroIssue).filter P = [] := by
        rw [List.filter_eq_nil_iff]
        intro a ha
        rw [List.eq_of_mem_replicate ha, hzero]
        simp
      simp [issuesSlice, List.filter_append, this]
    have h2 : (keyOrder.filter P).Nodup :=
      (hperm.nodup_iff.2 (keysOk_aggregate pages).1).filter _
    exact h1.nodup_iff.2 h2
  refine List.pairwise_map.2 ?_
  refine (hle.and hnd).imp_of_mem ?_
  intro a b ha hb hab
  obtain ⟨pa, hpa, hma, hca⟩ := hlisted a (List.mem_filter.1 ha).2
  obtain ⟨pb, hpb, hmb, hcb⟩ := hlisted b (List.mem_filter.1 hb).2
  have hne : a.Number ≠ b.Number := fun h => hab.2 (hinj pa hpa a hma pb hpb b hmb hca hcb h)
  exact lt_of_le_of_ne hab.1 hne

/-- Witness of C5, amended: issues #7 and #5 are both closed by PR #20 and
PR #21; the keys are enumerated as #7, #5 and the report numbers are strictly
ascending. -/
theorem report_numbers_ascending_witness :
    ((finalReport insertionSortCmpFunc [exIssue7, exIssue5] exPagesTwoContested).map
      (fun e => e.1.Number)).Pairwise (· < ·) :=
  (report_numbers_ascending insertionSortCmpFunc isSortFunc_insertionSortCmpFunc
    [exIssue7, exIssue5] exPagesTwoContested).2 (by decide) (by decide) (by decide)

/-- Counterexample to C6: two open closing-issue records with the same number 5
and different titles and URLs, listed by PR #20 and by PR #21. The map ends
with two entries, one per record, each holding one pull request. -/
theorem same_number_same_entry_counterexample :
    exIssue5.Number = exIssue5b.Number
      ∧ aggregate [exPage [exPR20 [exIssue5], exPR21 [exIssue5b]]]
          = [(exIssue5, [exIssue 20 false "twenty"]),
             (exIssue5b, [exIssue 21 false "twenty-one"])]
      ∧ (aggregate [exPage [exPR20 [exIssue5], exPR21 [exIssue5b]]]).index exIssue5
          ≠ (aggregate [exPage [exPR20 [exIssue5], exPR21 [exIssue5b]]]).index exIssue5b := by
  decide

/-- C6, amended: two closing-issue records address the same entry of the map
`is2pr` if and only if they are equal in every field: recording the pull
request `pr` under the open record `a` appends `pr` to the slice found under
`b` exactly when `a = b`, and leaves that slice as it was when the records
differ in any field. -/
theorem same_entry_iff_equal (is2pr : IssueMap) (pr a b : Issue) (ha : a.Closed = false) :
    ((handleClosing pr is2pr a).index b = is2pr.index b ++ [pr] ↔ a = b) ∧
    (a ≠ b → (handleClosing pr is2pr a).index b = is2pr.index b) := by
  rw [index_handleClosing]
  by_cases hab : a = b
  · subst hab
    simp [ha]
  · simp [hab]

/-- Witness of C6, amended: recording PR #21 under the second record with
number 5 leaves the entry of the first record as it was. -/
theorem same_entry_iff_equal_witness :
    (handleClosing (exIssue 21 false "twenty-one") [(exIssue5, [exIssue 20 false "twenty"])]
        exIssue5b).index exIssue5
      = IssueMap.index [(exIssue5, [exIssue 20 false "twenty"])] exIssue5 :=
  (same_entry_iff_equal [(exIssue5, [exIssue 20 false "twenty"])]
    (exIssue 21 false "twenty-one") exIssue5b exIssue5 (by decide)).2 (by decide)

/-- C7, evaluated at the input where it fails: the remote answers with one
page that holds PR #20, whose closing-issue list names the open issue #5 twice,
and PR #21, which names it once. The command prints issue #5 with the PR list
#20, #20, #21, and the sequence of pull requests that list the issue is
#20, #21. -/
theorem pr_listed_twice_is_printed_twice :
    run insertionSortCmpFunc [exIssue5] "o" "n" 0 [.ok exPageListedTwiceAndOnce]
        = some [(exIssue5, [exIssue 20 false "twenty", exIssue 20 false "twenty",
            exIssue 21 false "twenty-one"])]
      ∧ finalReport insertionSortCmpFunc [exIssue5] [exPageListedTwiceAndOnce]
        = [(exIssue5, [exIssue 20 false "twenty", exIssue 20 false "twenty",
            exIssue 21 false "twenty-one"])]
      ∧ [exIssue5].Perm (aggregate [exPageListedTwiceAndOnce]).keys
      ∧ prsListing (allNodes [exPageListedTwiceAndOnce]) exIssue5
        = [exIssue 20 false "twenty", exIssue 21 false "twenty-one"]
      ∧ ¬ ∀ e ∈ finalReport insertionSortCmpFunc [exIssue5] [exPageListedTwiceAndOnce],
          e.2 = prsListing (allNodes [exPageListedTwiceAndOnce]) e.1 := by
  decide

/-- C8: for every sequence of pages, no key of the contested-issue map is a
closed issue, no entry of the final report is a closed issue (whatever the sort
and the key order are), and no pull request is recorded under a closed issue:
the slice found under a closed issue record is empty. Each step of the handler
keeps the keys of the map free of closed issues. -/
theorem closed_issue_never_recorded (pages : List RepoQuery) :
    (∀ k ∈ (aggregate pages).keys, k.Closed = false) ∧
    (∀ (sortFunc : List Issue → List Issue) (keyOrder : List Issue),
      ∀ e ∈ finalReport sortFunc keyOrder pages, e.1.Closed = false) ∧
    (∀ k : Issue, k.Closed = true → (aggregate pages).index k = []) ∧
    (∀ (is2pr : IssueMap) (pr closing : Issue),
      (∀ k ∈ is2pr.keys, k.Closed = false) →
      ∀ k ∈ (handleClosing pr is2pr closing).keys, k.Closed = false) := by
  refine ⟨(keysOk_aggregate pages).2, ?_, ?_, ?_⟩
  · intro sortFunc keyOrder e he
    obtain ⟨_, hlen⟩ := mem_report he
    have : (aggregate pages).index e.1 ≠ [] := by
      intro h
      rw [h] at hlen
      simp at hlen
    exact (keysOk_aggregate pages).2 _ (index_ne_nil_mem_keys this)
  · intro k hk
    rw [index_aggregate]
    cases hl : listings (allNodes pages) k with
    | nil => rfl
    | cons p ps =>
      obtain ⟨_, _, _, _, h⟩ := mem_of_mem_listings (hl ▸ List.mem_cons_self p ps)
      rw [hk] at h
      exact Bool.noConfusion h
  · intro is2pr pr closing h k hk
    rw [handleClosing_eq] at hk
    cases hc : closing.Closed
    · rw [hc] at hk
      rcases mem_keys_set.1 hk with rfl | hk
      · exact hc
      · exact h k hk
    · rw [hc] at hk
      exact h k hk

/-- Witness of C8: PR #11 of the example lists the closed issue #3, and nothing
is recorded under it. -/
theorem closed_issue_never_recorded_witness :
    (aggregate exPagesStale).index (exIssue 3 true "three") = [] :=
  (closed_issue_never_recorded exPagesStale).2.2.1 (exIssue 3 true "three") (by decide)

end CmdMultiplePRs

/-! ## Claims on `repoPaginationLoop` -/

/-- C9: for every sequence of remote responses, the handler is invoked exactly
once for each successfully fetched page, in fetch order: the pages handled are
the pages fetched, every successful query is immediately followed by the
invocation of the handler on the page it returned (before any further query),
the queries consume the responses in order, and the final state is the result
of the successive invocations. The number of handler invocations is the number
of pages fetched, and when the run returns no error it is the number of
queries issued. -/
theorem handler_once_per_fetched_page {σ : Type} (owner name : String) (maxPRs : Int)
    (handler : σ → RepoQuery → σ × Option Error) (s : σ) (responses : List Response) :
    handlerFollowsFetch (repoPaginationLoop owner name maxPRs handler s responses).events = true
      ∧ handledPages (repoPaginationLoop owner name maxPRs handler s responses).events
          = fetchedPages (repoPaginationLoop owner name maxPRs handler s responses).events
      ∧ queryResponses (repoPaginationLoop owner name maxPRs handler s responses).events
          <+: responses
      ∧ (repoPaginationLoop owner name maxPRs handler s responses).state
          = (fetchedPages (repoPaginationLoop owner name maxPRs handler s responses).events).foldl
              (fun st q => (handler st q).1) s
      ∧ (handledPages (repoPaginationLoop owner name maxPRs handler s responses).events).length
          = (fetchedPages (repoPaginationLoop owner name maxPRs handler s responses).events).length
      ∧ ((∀ e, (repoPaginationLoop owner name maxPRs handler s responses).outcome
              ≠ .returned (some e)) →
          (handledPages (repoPaginationLoop owner name maxPRs handler s responses).events).length
            = queryCount (repoPaginationLoop owner name maxPRs handler s responses).events) := by
  obtain ⟨h1, h2, h3, h4, _, h6⟩ := paginate_events owner name maxPRs handler responses none 0 s
  exact ⟨h1, h2, h3, h4, congrArg List.length h2, h6⟩

/-- Witness of C9: two pages are fetched without error, the handler of
`CmdStalePRs` runs twice and two queries are issued. -/
theorem handler_once_per_fetched_page_witness :
    (handledPages (repoPaginationLoop "o" "n" 0 stalePRsHandler []
        (exPagesStale.map Response.ok)).events).length
      = queryCount (repoPaginationLoop "o" "n" 0 stalePRsHandler []
          (exPagesStale.map Response.ok)).events :=
  (handler_once_per_fetched_page "o" "n" 0 stalePRsHandler []
    (exPagesStale.map Response.ok)).2.2.2.2.2
    (fun e h =>
      absurd
        ((show Outcome.returned none
            = (repoPaginationLoop "o" "n" 0 stalePRsHandler []
                (exPagesStale.map Response.ok)).outcome by decide).trans h)
        (by simp))

/-- C10: for every cap `N > 0` and every run without error, the loop stops on
the first page after which the running total of pull requests exceeds `N`
(when every page before it announced a next page), returning nil; and when it
has returned after a page with a running total not above `N`, in particular
below `N`, that page reported `HasNextPage = false`. -/
theorem cap_stops_on_first_page_exceeding {σ : Type} (owner name : String) (N : Int)
    (hN : 0 < N) (handler : σ → RepoQuery → σ × Option Error)
    (hh : ∀ s q, (handler s q).2 = none) (s : σ) :
    (∀ (pre : List RepoQuery) (q : RepoQuery) (post : List RepoQuery),
      (∀ p ∈ pre, p.PageInfo.HasNextPage = true) →
      (countPRs pre : Int) ≤ N → (countPRs (pre ++ [q]) : Int) > N →
      (repoPaginationLoop owner name N handler s
          ((pre ++ q :: post).map Response.ok)).outcome = .returned none
        ∧ fetchedPages (repoPaginationLoop owner name N handler s
            ((pre ++ q :: post).map Response.ok)).events = pre ++ [q]
        ∧ (repoPaginationLoop owner name N handler s
            ((pre ++ q :: post).map Response.ok)).totalPRs = countPRs (pre ++ [q])) ∧
    (∀ (pages pre : List RepoQuery) (q : RepoQuery),
      (repoPaginationLoop owner name N handler s (pages.map Response.ok)).outcome
        = .returned none →
      fetchedPages (repoPaginationLoop owner name N handler s (pages.map Response.ok)).events
        = pre ++ [q] →
      (countPRs (pre ++ [q]) : Int) ≤ N →
      q.PageInfo.HasNextPage = false) := by
  constructor
  · intro pre q post hnext hle hgt
    obtain ⟨h1, h2⟩ := paginate_stops owner name N hN handler hh q post pre none 0 s hnext
      (by simpa using hle) (Or.inl (by simpa using hgt))
    refine ⟨h1, h2, ?_⟩
    have h5 := (paginate_events owner name N handler ((pre ++ q :: post).map Response.ok)
      none 0 s).2.2.2.2.1
    simp only at h5
    rw [h2, Nat.zero_add] at h5
    exact h5
  · intro pages pre q hret hfetched hle
    obtain ⟨pre1, q1, h1, h2⟩ := paginate_returned owner name N handler
      (pages.map Response.ok) none 0 s hret
    have h5 := (paginate_events owner name N handler (pages.map Response.ok)
      none 0 s).2.2.2.2.1
    simp only at h5
    have hfetched1 : fetchedPages (paginate owner name N handler (pages.map Response.ok)
        none 0 s).events = pre ++ [q] := hfetched
    rw [hfetched1] at h1 h5
    have hq : q = q1 := by
      have := List.append_inj_right' h1 rfl
      simpa using this
    rcases h2 with ⟨_, hgt⟩ | hno
    · rw [h5, Nat.zero_add] at hgt
      omega
    · rw [hq]
      exact hno

/-- Witness of C10: with the cap 1 and pages of one pull request each, the
total is 1 after the first page and 2 after the second; the loop stops after
the second page although it announces a next page and a third page is ready. -/
theorem cap_stops_on_first_page_exceeding_witness :
    (repoPaginationLoop "o" "n" 1 stalePRsHandler []
        (([exPageNext [exPR10] "c1"] ++ exPageNext [exPR11] "c2"
          :: [exPageNext [exPR12] "c3"]).map Response.ok)).outcome = .returned none
      ∧ fetchedPages (repoPaginationLoop "o" "n" 1 stalePRsHandler []
          (([exPageNext [exPR10] "c1"] ++ exPageNext [exPR11] "c2"
            :: [exPageNext [exPR12] "c3"]).map Response.ok)).events
          = [exPageNext [exPR10] "c1"] ++ [exPageNext [exPR11] "c2"]
      ∧ (repoPaginationLoop "o" "n" 1 stalePRsHandler []
          (([exPageNext [exPR10] "c1"] ++ exPageNext [exPR11] "c2"
            :: [exPageNext [exPR12] "c3"]).map Response.ok)).totalPRs
          = countPRs ([exPageNext [exPR10] "c1"] ++ [exPageNext [exPR11] "c2"]) :=
  (cap_stops_on_first_page_exceeding "o" "n" 1 (by decide) stalePRsHandler
    (fun _ _ => rfl) []).1 [exPageNext [exPR10] "c1"] (exPageNext [exPR11] "c2")
    [exPageNext [exPR12] "c3"] (by decide) (by decide) (by decide)

/-! ## Claims on the cap, the errors and the cursor of `repoPaginationLoop` -/

/-- C11, evaluated at the input where it fails: with the cap 100 and full pages
of 100 pull requests that each announce a next page, the loop returns after two
pages and has processed 200 pull requests, which is more than 100 rounded up to
the next multiple of the page size, that is more than 100. -/
theorem cap_hundred_processes_two_hundred :
    (repoPaginationLoop "o" "n" 100 stalePRsHandler []
        ([exFullPage, exFullPage, exFullPage].map Response.ok)).outcome = .returned none
      ∧ fetchedPages (repoPaginationLoop "o" "n" 100 stalePRsHandler []
          ([exFullPage, exFullPage, exFullPage].map Response.ok)).events
          = [exFullPage, exFullPage]
      ∧ (repoPaginationLoop "o" "n" 100 stalePRsHandler []
          ([exFullPage, exFullPage, exFullPage].map Response.ok)).totalPRs = 200
      ∧ ¬ (200 ≤ (100 + 99) / 100 * 100) := by
  have hc : ∀ l : List RepoQuery, countPRs (exFullPage :: l) = 100 + countPRs l := by
    intro l
    simp [countPRs, exFullPage, exPageNext]
  have h := paginate_stops "o" "n" 100 (by decide) stalePRsHandler (fun _ _ => rfl)
    exFullPage [exFullPage] [exFullPage] none 0 []
    (by intro p hp; rw [List.mem_singleton.1 hp]; rfl)
    (by rw [hc]; simp [countPRs])
    (Or.inl (by
      simp only [List.singleton_append]
      rw [hc, hc]
      simp [countPRs]))
  have h5 := (paginate_events "o" "n" 100 stalePRsHandler
    ([exFullPage, exFullPage, exFullPage].map Response.ok) none 0 []).2.2.2.2.1
  simp only at h5
  refine ⟨h.1, h.2, ?_, by decide⟩
  have h2 : fetchedPages (paginate "o" "n" 100 stalePRsHandler
      ([exFullPage, exFullPage, exFullPage].map Response.ok) none 0 []).events
      = [exFullPage, exFullPage] := h.2
  rw [h2, hc, hc] at h5
  simpa [countPRs] using h5

/-- C12: in every run, a query that is answered with an error is the last step
(the handler is not invoked for it and no further query is issued) and the loop
returns exactly that error; an invocation of the handler that returns an error
is the last step (no further query, no further invocation) and the loop returns
exactly that error; and a run that returns an error ends with the step that
failed with it. -/
theorem error_aborts_loop {σ : Type} (owner name : String) (maxPRs : Int)
    (handler : σ → RepoQuery → σ × Option Error) (s : σ) (responses : List Response) :
    (∀ (pre post : List Event) (v : Variables) (e : Error),
      (repoPaginationLoop owner name maxPRs handler s responses).events
        = pre ++ Event.query v (.err e) :: post →
      post = [] ∧ (repoPaginationLoop owner name maxPRs handler s responses).outcome
        = .returned (some e)) ∧
    (∀ (pre post : List Event) (q : RepoQuery) (e : Error),
      (repoPaginationLoop owner name maxPRs handler s responses).events
        = pre ++ Event.handler q (some e) :: post →
      post = [] ∧ (repoPaginationLoop owner name maxPRs handler s responses).outcome
        = .returned (some e)) ∧
    (∀ e : Error,
      (repoPaginationLoop owner name maxPRs handler s responses).outcome
        = .returned (some e) →
      ∃ pre x, (repoPaginationLoop owner name maxPRs handler s responses).events = pre ++ [x]
        ∧ x.failure = some e) := by
  refine ⟨?_, ?_, ?_⟩
  · intro pre post v e hev
    exact paginate_failure_last owner name maxPRs handler responses none 0 s pre post _ e hev rfl
  · intro pre post q e hev
    exact paginate_failure_last owner name maxPRs handler responses none 0 s pre post _ e hev rfl
  · intro e h
    exact paginate_error_from_failure owner name maxPRs handler responses none 0 s e h

/-- Witness of C12: a remote whose second answer is the error "boom", with a
third page ready, and a handler that fails on the empty second page, with a
third page ready; in both runs the failing step is the last one and the loop
returns its error. -/
theorem error_aborts_loop_witness :
    (([] : List Event) = [] ∧
      (repoPaginationLoop "o" "n" 0 stalePRsHandler []
        [.ok (exPageNext [exPR10] "c1"), .err "boom", .ok (exPage [exPR11])]).outcome
        = .returned (some "boom")) ∧
    (([] : List Event) = [] ∧
      (repoPaginationLoop "o" "n" 0 exFailingHandler 0
        [.ok (exPageNext [exPR10] "c1"), .ok (exPageNext [] "c2"), .ok (exPage [exPR11])]).outcome
        = .returned (some "empty page")) :=
  ⟨(error_aborts_loop "o" "n" 0 stalePRsHandler []
      [.ok (exPageNext [exPR10] "c1"), .err "boom", .ok (exPage [exPR11])]).1
      [.query ⟨"o", "n", 100, none⟩ (.ok (exPageNext [exPR10] "c1")),
       .handler (exPageNext [exPR10] "c1") none] []
      ⟨"o", "n", 100, some "c1"⟩ "boom" (by decide),
   (error_aborts_loop "o" "n" 0 exFailingHandler 0
      [.ok (exPageNext [exPR10] "c1"), .ok (exPageNext [] "c2"), .ok (exPage [exPR11])]).2.1
      [.query ⟨"o", "n", 100, none⟩ (.ok (exPageNext [exPR10] "c1")),
       .handler (exPageNext [exPR10] "c1") none,
       .query ⟨"o", "n", 100, some "c1"⟩ (.ok (exPageNext [] "c2"))] []
      (exPageNext [] "c2") "empty page" (by decide)⟩

/-- C13: with `maxPRs = 0` and no error, the loop stops exactly after the first
fetched page whose `HasNextPage` is false, whatever the pages hold: it returns
nil there when every page before announced a next page; it goes through all the
given pages and waits for more when they all announce a next page; and when it
has returned, the last fetched page reported no next page and all the pages
before it reported one. -/
theorem unbounded_stops_at_last_page {σ : Type} (owner name : String)
    (handler : σ → RepoQuery → σ × Option Error) (hh : ∀ s q, (handler s q).2 = none)
    (s : σ) :
    (∀ (pre : List RepoQuery) (q : RepoQuery) (post : List RepoQuery),
      (∀ p ∈ pre, p.PageInfo.HasNextPage = true) → q.PageInfo.HasNextPage = false →
      (repoPaginationLoop owner name 0 handler s
          ((pre ++ q :: post).map Response.ok)).outcome = .returned none
        ∧ fetchedPages (repoPaginationLoop owner name 0 handler s
            ((pre ++ q :: post).map Response.ok)).events = pre ++ [q]) ∧
    (∀ pages : List RepoQuery, (∀ p ∈ pages, p.PageInfo.HasNextPage = true) →
      (repoPaginationLoop owner name 0 handler s (pages.map Response.ok)).outcome = .pending
        ∧ fetchedPages (repoPaginationLoop owner name 0 handler s
            (pages.map Response.ok)).events = pages) ∧
    (∀ (pages pre : List RepoQuery) (q : RepoQuery),
      (repoPaginationLoop owner name 0 handler s (pages.map Response.ok)).outcome
        = .returned none →
      fetchedPages (repoPaginationLoop owner name 0 handler s (pages.map Response.ok)).events
        = pre ++ [q] →
      q.PageInfo.HasNextPage = false ∧ ∀ p ∈ pre, p.PageInfo.HasNextPage = true) := by
  refine ⟨?_, ?_, ?_⟩
  · intro pre q post hpre hq
    exact paginate_unbounded_stops owner name handler hh q post pre none 0 s hpre hq
  · intro pages hp
    exact paginate_unbounded_pending owner name handler hh pages none 0 s hp
  · intro pages pre q hret hf
    have hf1 : fetchedPages (paginate owner name 0 handler (pages.map Response.ok)
        none 0 s).events = pre ++ [q] := hf
    constructor
    · obtain ⟨pre1, q1, h1, h2⟩ := paginate_returned owner name 0 handler
        (pages.map Response.ok) none 0 s hret
      rw [hf1] at h1
      have hq : q = q1 := by
        have := List.append_inj_right' h1 rfl
        simpa using this
      rcases h2 with ⟨h0, _⟩ | hno
      · exact absurd h0 (by decide)
      · rw [hq]
        exact hno
    · have := paginate_fetched_init owner name 0 handler (pages.map Response.ok) none 0 s
      rw [hf1, List.dropLast_concat] at this
      exact this

/-- Witness of C13: two pages that announce a next page, a third that does not,
and a fourth that is ready; the loop returns nil after the third. -/
theorem unbounded_stops_at_last_page_witness :
    (repoPaginationLoop "o" "n" 0 stalePRsHandler []
        (([exPageNext [exPR10] "c1", exPageNext [exPR11] "c2"] ++ exPage [exPR12]
          :: [exPageNext [exPR10] "c4"]).map Response.ok)).outcome = .returned none
      ∧ fetchedPages (repoPaginationLoop "o" "n" 0 stalePRsHandler []
          (([exPageNext [exPR10] "c1", exPageNext [exPR11] "c2"] ++ exPage [exPR12]
            :: [exPageNext [exPR10] "c4"]).map Response.ok)).events
          = [exPageNext [exPR10] "c1", exPageNext [exPR11] "c2"] ++ [exPage [exPR12]] :=
  (unbounded_stops_at_last_page "o" "n" stalePRsHandler (fun _ _ => rfl) []).1
    [exPageNext [exPR10] "c1", exPageNext [exPR11] "c2"] (exPage [exPR12])
    [exPageNext [exPR10] "c4"] (by decide) (by decide)

/-- C14: in every run, the variables of the successive queries are the owner,
the name and the page size 100, the same in every query, with the cursors nil
for the first query and, for each later query, the `EndCursor` of the page that
the query just before it returned. -/
theorem cursor_chaining {σ : Type} (owner name : String) (maxPRs : Int)
    (handler : σ → RepoQuery → σ × Option Error) (s : σ) (responses : List Response) :
    queryVariables (repoPaginationLoop owner name maxPRs handler s responses).events
      = ((none :: (fetchedPages
            (repoPaginationLoop owner name maxPRs handler s responses).events).map
              (fun q => some q.PageInfo.EndCursor)).take
          (queryCount (repoPaginationLoop owner name maxPRs handler s responses).events)).map
        (fun c => { repoOwner := owner, repoName := name, kPageSize := 100, prCursor := c }) :=
  paginate_variables owner name maxPRs handler responses none 0 s

/-! ## Claims on the order of the aggregates and of the report -/

namespace CmdStalePRs

/-- C15: for every sequence of pages, the entries of the stale-PR aggregate are
in the order of the concatenation of the pull-request lists of the pages (the
aggregate is a sublist of the arrival-ordered list of the pull requests with
their closing issues), and the handler only appends: what was collected before
a page is a leading part of what is collected after it, so a later page never
removes or reorders earlier entries. -/
theorem aggregate_keeps_arrival_order (pages : List RepoQuery) :
    (aggregate pages).Sublist
        ((allNodes pages).map (fun pr =>
          ({ pr := pr.toIssue, closedIssues := pr.ClosingIssuesReferences } : stalePR)))
      ∧ ((aggregate pages).map (fun e => e.pr)).Sublist
          ((allNodes pages).map (fun pr => pr.toIssue))
      ∧ (∀ (stalePRs : List stalePR) (query : RepoQuery),
          stalePRs <+: handler stalePRs query)
      ∧ (∀ more : List RepoQuery, aggregate pages <+: aggregate (pages ++ more)) := by
  have h1 := filterMap_entryOf_sublist (allNodes pages)
  rw [← aggregate_eq] at h1
  refine ⟨h1, ?_, ?_, ?_⟩
  · have := h1.map (fun e : stalePR => e.pr)
    simpa [Function.comp_def] using this
  · intro acc q
    rw [handler, foldl_handlePR]
    exact List.prefix_append _ _
  · intro more
    rw [aggregate, aggregate, List.foldl_append, foldl_handler more]
    exact List.prefix_append _ _

end CmdStalePRs

namespace CmdMultiplePRs

open IssueMap

/-- C16, evaluated at the input where it fails: the map holds two keys with the
number 5, each with the pull requests #20 and #21. Both orders of the two keys
are orders in which `range` may enumerate them, and the report lists the two
issues in the order in which they were enumerated, so the two reports differ. -/
theorem report_follows_key_order :
    [exIssue5, exIssue5b].Perm
        (aggregate [exPage [exPR20 [exIssue5, exIssue5b], exPR21 [exIssue5, exIssue5b]]]).keys
      ∧ [exIssue5b, exIssue5].Perm
        (aggregate [exPage [exPR20 [exIssue5, exIssue5b], exPR21 [exIssue5, exIssue5b]]]).keys
      ∧ (report insertionSortCmpFunc [exIssue5, exIssue5b]
          (aggregate [exPage [exPR20 [exIssue5, exIssue5b],
            exPR21 [exIssue5, exIssue5b]]])).map Prod.fst = [exIssue5, exIssue5b]
      ∧ (report insertionSortCmpFunc [exIssue5b, exIssue5]
          (aggregate [exPage [exPR20 [exIssue5, exIssue5b],
            exPR21 [exIssue5, exIssue5b]]])).map Prod.fst = [exIssue5b, exIssue5]
      ∧ report insertionSortCmpFunc [exIssue5, exIssue5b]
          (aggregate [exPage [exPR20 [exIssue5, exIssue5b], exPR21 [exIssue5, exIssue5b]]])
        ≠ report insertionSortCmpFunc [exIssue5b, exIssue5]
          (aggregate [exPage [exPR20 [exIssue5, exIssue5b],
            exPR21 [exIssue5, exIssue5b]]]) := by
  decide

/-- C17: the slice `issues` holds `len(is2pr)` zero values followed by the keys
of the map; for every sequence of pages in which every closing issue has a
positive number, every sort that meets the contract of `slices.SortFunc` and
every order of enumeration of the keys, the issues of the report are exactly
the keys of the map whose PR list has at least two elements, each exactly once,
none of them is the zero value of the padding, and each comes with its PR
list. -/
theorem padding_leaves_report_exact (sortFunc : List Issue → List Issue)
    (hs : IsSortFunc sortFunc) (keyOrder : List Issue) (pages : List RepoQuery)
    (hk : keyOrder.Perm (aggregate pages).keys)
    (hpos : ∀ p ∈ allNodes pages, ∀ c ∈ p.ClosingIssuesReferences, 0 < c.Number) :
    issuesSlice (aggregate pages) keyOrder
        = List.replicate (aggregate pages).keys.length zeroIssue ++ keyOrder
      ∧ ((finalReport sortFunc keyOrder pages).map Prod.fst).Perm
          ((aggregate pages).keys.filter
            (fun k => decide (2 ≤ ((aggregate pages).index k).length)))
      ∧ ((finalReport sortFunc keyOrder pages).map Prod.fst).Nodup
      ∧ zeroIssue ∉ (finalReport sortFunc keyOrder pages).map Prod.fst
      ∧ ∀ e ∈ finalReport sortFunc keyOrder pages, e.2 = (aggregate pages).index e.1 := by
  have hzero : (aggregate pages).index zeroIssue = [] := by
    rw [index_aggregate]
    cases hl : listings (allNodes pages) zeroIssue with
    | nil => rfl
    | cons p ps =>
      obtain ⟨pr, hpr, _, hmem, _⟩ := mem_of_mem_listings (hl ▸ List.mem_cons_self p ps)
      have := hpos pr hpr zeroIssue hmem
      simp [zeroIssue] at this
  have hperm : ((finalReport sortFunc keyOrder pages).map Prod.fst).Perm
      ((aggregate pages).keys.filter
        (fun k => decide (2 ≤ ((aggregate pages).index k).length))) := by
    refine (report_map_fst_perm hs hk).trans ?_
    rw [List.filter_append]
    have : (List.replicate (aggregate pages).length zeroIssue).filter
        (fun k => decide (2 ≤ ((aggregate pages).index k).length)) = [] := by
      rw [List.filter_eq_nil_iff]
      intro a ha
      rw [List.eq_of_mem_replicate ha, hzero]
      simp
    rw [this, List.nil_append]
  refine ⟨?_, hperm, ?_, ?_, ?_⟩
  · simp [issuesSlice, keys]
  · exact hperm.nodup_iff.2 ((keysOk_aggregate pages).1.filter _)
  · intro hz
    have := (List.mem_filter.1 (hperm.subset hz)).2
    rw [hzero] at this
    simp at this
  · intro e he
    exact (mem_report he).1

/-- Witness of C17: issues #7 and #5, both closed by PR #20 and PR #21; the
slice is two zero values followed by #7, #5, and the report holds the two keys
once each and no zero value. -/
theorem padding_leaves_report_exact_witness :
    issuesSlice (aggregate exPagesTwoContested) [exIssue7, exIssue5]
        = List.replicate (aggregate exPagesTwoContested).keys.length zeroIssue
          ++ [exIssue7, exIssue5]
      ∧ ((finalReport insertionSortCmpFunc [exIssue7, exIssue5] exPagesTwoContested).map
        Prod.fst).Perm
        ((aggregate exPagesTwoContested).keys.filter
          (fun k => decide (2 ≤ ((aggregate exPagesTwoContested).index k).length)))
      ∧ ((finalReport insertionSortCmpFunc [exIssue7, exIssue5] exPagesTwoContested).map
          Prod.fst).Nodup
      ∧ zeroIssue ∉ (finalReport insertionSortCmpFunc [exIssue7, exIssue5]
          exPagesTwoContested).map Prod.fst :=
  have h := padding_leaves_report_exact insertionSortCmpFunc isSortFunc_insertionSortCmpFunc
    [exIssue7, exIssue5] exPagesTwoContested (by decide) (by decide)
  ⟨h.1, h.2.1, h.2.2.1, h.2.2.2.1⟩

end CmdMultiplePRs

/-! ## Claims on page boundaries and termination -/

/-- C18: for both analyzers, running the handler on each page of a sequence in
turn gives the same aggregate as running it once on a single page that holds
the concatenation of the pull-request lists of the pages; so two sequences of
pages with the same ordered list of pull requests give the same aggregates,
wherever the page boundaries fall. -/
theorem page_split_independence (pages : List RepoQuery) :
    (∀ single : RepoQuery, single.Nodes = allNodes pages →
      CmdStalePRs.aggregate pages = CmdStalePRs.handler [] single
        ∧ CmdMultiplePRs.aggregate pages = CmdMultiplePRs.handler [] single) ∧
    (∀ pages2 : List RepoQuery, allNodes pages2 = allNodes pages →
      CmdStalePRs.aggregate pages2 = CmdStalePRs.aggregate pages
        ∧ CmdMultiplePRs.aggregate pages2 = CmdMultiplePRs.aggregate pages) := by
  constructor
  · intro single hs
    constructor
    · rw [CmdStalePRs.aggregate_eq, CmdStalePRs.handler, CmdStalePRs.foldl_handlePR, hs]
      simp
    · rw [CmdMultiplePRs.aggregate, CmdMultiplePRs.foldl_handler_eq, CmdMultiplePRs.handler, hs]
  · intro pages2 h
    constructor
    · rw [CmdStalePRs.aggregate_eq, CmdStalePRs.aggregate_eq, h]
    · rw [CmdMultiplePRs.aggregate, CmdMultiplePRs.aggregate,
        CmdMultiplePRs.foldl_handler_eq, CmdMultiplePRs.foldl_handler_eq, h]

/-- Witness of C18: the three pull requests #10, #11, #12 on two pages and on a
single page, and PR #20 and PR #21 on two pages and on a single page. -/
theorem page_split_independence_witness :
    (CmdStalePRs.aggregate exPagesStale
        = CmdStalePRs.handler [] (exPage [exPR10, exPR11, exPR12])
      ∧ CmdMultiplePRs.aggregate exPagesStale
        = CmdMultiplePRs.handler [] (exPage [exPR10, exPR11, exPR12])) ∧
    (CmdStalePRs.aggregate exPagesTwoContested
        = CmdStalePRs.handler []
            (exPage [exPR20 [exIssue7, exIssue5], exPR21 [exIssue5, exIssue7]])
      ∧ CmdMultiplePRs.aggregate exPagesTwoContested
        = CmdMultiplePRs.handler []
            (exPage [exPR20 [exIssue7, exIssue5], exPR21 [exIssue5, exIssue7]])) :=
  ⟨(page_split_independence exPagesStale).1 (exPage [exPR10, exPR11, exPR12]) (by decide),
   (page_split_independence exPagesTwoContested).1
     (exPage [exPR20 [exIssue7, exIssue5], exPR21 [exIssue5, exIssue7]]) (by decide)⟩

/-- C19: for every cap `N > 0` and every remote that returns at least one pull
request on every page, once more than `N` pages are available the loop returns
(with nil when the handler never fails) after at most `N + 1` queries, whatever
the pages report in `HasNextPage`. -/
theorem bounded_terminates {σ : Type} (owner name : String) (N : Int) (hN : 0 < N)
    (handler : σ → RepoQuery → σ × Option Error) (s : σ) (pages : List RepoQuery)
    (hne : ∀ p ∈ pages, p.Nodes ≠ []) (hlen : N < (pages.length : Int)) :
    (∃ err, (repoPaginationLoop owner name N handler s (pages.map Response.ok)).outcome
        = .returned err ∧ ((∀ s q, (handler s q).2 = none) → err = none))
      ∧ (queryCount (repoPaginationLoop owner name N handler s
          (pages.map Response.ok)).events : Int) ≤ N + 1 := by
  have h := paginate_terminates owner name N hN handler pages none 0 s hne
    (by simpa using hN.le) (by simpa using hlen)
  refine ⟨h.1, ?_⟩
  simpa using h.2

/-- Witness of C19: the cap 2 and three pages of one pull request each, all
announcing a next page; the loop returns after its third query. -/
theorem bounded_terminates_witness :
    (∃ err, (repoPaginationLoop "o" "n" 2 stalePRsHandler []
        ([exPageNext [exPR10] "c1", exPageNext [exPR11] "c2",
          exPageNext [exPR12] "c3"].map Response.ok)).outcome
        = .returned err ∧ ((∀ s q, (stalePRsHandler s q).2 = none) → err = none))
      ∧ (queryCount (repoPaginationLoop "o" "n" 2 stalePRsHandler []
          ([exPageNext [exPR10] "c1", exPageNext [exPR11] "c2",
            exPageNext [exPR12] "c3"].map Response.ok)).events : Int) ≤ 2 + 1 :=
  bounded_terminates "o" "n" 2 (by decide) stalePRsHandler []
    [exPageNext [exPR10] "c1", exPageNext [exPR11] "c2", exPageNext [exPR12] "c3"]
    (by decide) (by decide)

end Johnny
